import Mathlib

/-!
Verification of the factory-definition indexer of the rails-factorybot-jump
repository.  The development shallowly embeds, in Lean, the data model
(src/models/location.ts, src/models/factory.ts, src/models/trait.ts), the
cache store (src/services/cacheManager.ts), the regex pattern library
(src/utils/regexPatterns.ts) together with a small JS-style backtracking
regex engine, the definition extractor (src/services/factoryParser.ts), and
the reference resolver of src/providers/factoryLinkProvider.ts
(provideDocumentLinks), and proves or refutes the specified properties.

Conventions of the embedding:
- JS `Map` objects are modelled as association lists (`List (String × α)`)
  with first-occurrence lookup; `set` replaces the value in place (keeping
  the entry position) exactly as `Map.set` does, and `delete` removes the
  entries with the given key.  JS maps never hold a duplicated key, so on
  every state the JS code can construct these operations agree with `Map`.
- `Date.now()` is modelled by an explicit `now : Int` argument at each
  operation that reads the clock.
- `vscode.Uri` values are modelled by their `toString()` image, a `String`.
-/

set_option autoImplicit false

namespace FactoryBotJump

/-- Lookup of the first entry with the given key, as JS `Map.get`. -/
def mapGet {α : Type} : List (String × α) → String → Option α
  | [], _ => none
  | p :: rest, k => if p.1 = k then some p.2 else mapGet rest k

/-- Insert or replace in place, as JS `Map.set`: an existing entry keeps its
position in iteration order, a new entry is appended at the end. -/
def mapSet {α : Type} : List (String × α) → String → α → List (String × α)
  | [], k, v => [(k, v)]
  | p :: rest, k, v => if p.1 = k then (k, v) :: rest else p :: mapSet rest k v

/-- Removal of the entries with the given key, as JS `Map.delete`. -/
def mapDelete {α : Type} : List (String × α) → String → List (String × α)
  | [], _ => []
  | p :: rest, k => if p.1 = k then mapDelete rest k else p :: mapDelete rest k

/-! ## Data model (src/models) -/

/-- Embeds the Location model (src/models/location.ts): a file identified by
the string form of its URI, a 0-based line, and optional column and length. -/
structure Loc where
  uri : String
  line : Nat
  column : Option Nat := none
  length : Option Nat := none
deriving DecidableEq

/-- Embeds Location.equals: componentwise comparison, the URI compared by its
string form. -/
def locEquals (a b : Loc) : Bool :=
  a.uri = b.uri && a.line = b.line && a.column = b.column && a.length = b.length

/-- Embeds the Trait model (src/models/trait.ts). -/
structure Trait where
  name : String
  location : Loc
  factoryName : String
deriving DecidableEq

/-- Embeds Trait.getKey: the composite identity key. -/
def Trait.getKey (t : Trait) : String :=
  t.factoryName ++ ":" ++ t.name

/-- Embeds Trait.equals. -/
def Trait.equalsB (a b : Trait) : Bool :=
  a.name = b.name && a.factoryName = b.factoryName && locEquals a.location b.location

/-- Embeds the Factory model (src/models/factory.ts).  The private traits
map (trait name to trait) is carried as an association list. -/
structure Factory where
  name : String
  location : Loc
  parentFactory : Option String := none
  traits : List (String × Trait) := []
deriving DecidableEq

/-- Embeds Factory.addTrait: `this.traits.set(trait.name, trait)`. -/
def Factory.addTrait (f : Factory) (t : Trait) : Factory :=
  { f with traits := mapSet f.traits t.name t }

/-- Embeds Factory.getTrait. -/
def Factory.getTrait (f : Factory) (traitName : String) : Option Trait :=
  mapGet f.traits traitName

/-- Embeds Factory.hasTrait. -/
def Factory.hasTrait (f : Factory) (traitName : String) : Bool :=
  (mapGet f.traits traitName).isSome

/-- Embeds Factory.getTraitCount. -/
def Factory.getTraitCount (f : Factory) : Nat :=
  f.traits.length

/-- Embeds Factory.equals: compares name, location (via Location.equals) and
parentFactory only; the traits map does not take part. -/
def Factory.equalsB (a b : Factory) : Bool :=
  a.name = b.name && locEquals a.location b.location && a.parentFactory = b.parentFactory

/-! ## Cache store (src/services/cacheManager.ts) -/

/-- Embeds the CachedFactoryInfo record. -/
structure CachedFactoryInfo where
  factory : Factory
  timestamp : Int
deriving DecidableEq

/-- Embeds the CachedTraitInfo record. -/
structure CachedTraitInfo where
  trait : Trait
  timestamp : Int
deriving DecidableEq

/-- Embeds the FileCacheInfo record backing the per-file index. -/
structure FileCacheInfo where
  uri : String
  lastModified : Int
  factories : List String
  traits : List String
deriving DecidableEq

/-- Embeds the mutable state of a CacheManager instance. -/
structure CacheManager where
  factoryCache : List (String × CachedFactoryInfo)
  traitCache : List (String × CachedTraitInfo)
  fileCache : List (String × FileCacheInfo)
  isInitialized : Bool
  cacheTimeout : Int
deriving DecidableEq

/-- Embeds the CacheManager constructor: the field default is 60000 ms and
`if (cacheTimeoutMs) this.cacheTimeout = cacheTimeoutMs` overrides it only
when the argument is present and truthy (a nonzero number). -/
def mkCacheManager (cacheTimeoutMs : Option Int) : CacheManager :=
  { factoryCache := []
    traitCache := []
    fileCache := []
    isInitialized := false
    cacheTimeout :=
      match cacheTimeoutMs with
      | some t => if t ≠ 0 then t else 60000
      | none => 60000 }

/-- Embeds the private addToFileCache helper: fetch or create the file entry,
push the factory name and the trait key, refresh lastModified.  The source
guards each push with `if (factoryName && !includes(...))`: a null argument
and the empty string are both falsy in JS, so `none` and `some ""` push
nothing. -/
def CacheManager.addToFileCache (σ : CacheManager) (fileUri : String)
    (factoryName : Option String) (traitKey : Option String) (now : Int) :
    CacheManager :=
  let fileInfo :=
    match mapGet σ.fileCache fileUri with
    | some fi => fi
    | none => { uri := fileUri, lastModified := now, factories := [], traits := [] }
  let fi1 :=
    match factoryName with
    | some n =>
        if n ≠ "" && !(fileInfo.factories.contains n) then
          { fileInfo with factories := fileInfo.factories ++ [n] }
        else fileInfo
    | none => fileInfo
  let fi2 :=
    match traitKey with
    | some k =>
        if k ≠ "" && !(fi1.traits.contains k) then
          { fi1 with traits := fi1.traits ++ [k] }
        else fi1
    | none => fi1
  { σ with fileCache := mapSet σ.fileCache fileUri { fi2 with lastModified := now } }

/-- Embeds cacheFactory: store under the factory name with the current
timestamp, then record the attribution to the factory location file. -/
def CacheManager.cacheFactory (σ : CacheManager) (factory : Factory) (now : Int) :
    CacheManager :=
  let σ1 := { σ with
    factoryCache := mapSet σ.factoryCache factory.name ⟨factory, now⟩ }
  σ1.addToFileCache factory.location.uri (some factory.name) none now

/-- Embeds cacheTrait: store under the composite key with the current
timestamp, then record the attribution to the trait location file. -/
def CacheManager.cacheTrait (σ : CacheManager) (trait : Trait) (now : Int) :
    CacheManager :=
  let σ1 := { σ with
    traitCache := mapSet σ.traitCache trait.getKey ⟨trait, now⟩ }
  σ1.addToFileCache trait.location.uri none (some trait.getKey) now

/-- Embeds removeFileFromCache: delete every factory and trait the file
contributed, then drop the file index entry; no-op for an untracked file. -/
def CacheManager.removeFileFromCache (σ : CacheManager) (fileUri : String) :
    CacheManager :=
  match mapGet σ.fileCache fileUri with
  | none => σ
  | some fi =>
      { σ with
        factoryCache := fi.factories.foldl (fun m n => mapDelete m n) σ.factoryCache
        traitCache := fi.traits.foldl (fun m k => mapDelete m k) σ.traitCache
        fileCache := mapDelete σ.fileCache fileUri }

/-- Embeds shouldUpdateFile.  The stat collaborator is passed as
`statResult`: `some mtime` for a successful stat, `none` when the stat call
throws (for example because the file was deleted).  An untracked file returns
true before any stat is attempted; a failed stat on a tracked file removes
the file from the cache and returns false. -/
def CacheManager.shouldUpdateFile (σ : CacheManager) (fileUri : String)
    (statResult : Option Int) : Bool × CacheManager :=
  match mapGet σ.fileCache fileUri with
  | none => (true, σ)
  | some fi =>
      match statResult with
      | some mtime => (mtime > fi.lastModified, σ)
      | none => (false, σ.removeFileFromCache fileUri)

/-- Embeds updateFileCache: remove the file contribution, then cache the new
factories and then the new traits. -/
def CacheManager.updateFileCache (σ : CacheManager) (fileUri : String)
    (factories : List Factory) (traits : List Trait) (now : Int) : CacheManager :=
  let σ1 := σ.removeFileFromCache fileUri
  let σ2 := factories.foldl (fun s f => s.cacheFactory f now) σ1
  traits.foldl (fun s t => s.cacheTrait t now) σ2

/-- Embeds the record returned by getCacheStats. -/
structure CacheStats where
  factoryCount : Nat
  traitCount : Nat
  fileCount : Nat
  isInitialized : Bool
  cacheTimeout : Int
deriving DecidableEq

/-- Embeds getCacheStats. -/
def CacheManager.getCacheStats (σ : CacheManager) : CacheStats :=
  { factoryCount := σ.factoryCache.length
    traitCount := σ.traitCache.length
    fileCount := σ.fileCache.length
    isInitialized := σ.isInitialized
    cacheTimeout := σ.cacheTimeout }

/-- Embeds the private isCacheExpired predicate: age strictly above the
timeout.  The `currentTime` argument of the source is always supplied here. -/
def CacheManager.isCacheExpired (σ : CacheManager) (timestamp now : Int) : Bool :=
  now - timestamp > σ.cacheTimeout

/-- Embeds getFactory: a miss returns undefined; an expired hit deletes the
entry (lazy expiry) and returns undefined; a fresh hit returns the factory.
The resulting state is returned alongside. -/
def CacheManager.getFactory (σ : CacheManager) (factoryName : String) (now : Int) :
    Option Factory × CacheManager :=
  match mapGet σ.factoryCache factoryName with
  | none => (none, σ)
  | some cached =>
      if σ.isCacheExpired cached.timestamp now then
        (none, { σ with factoryCache := mapDelete σ.factoryCache factoryName })
      else
        (some cached.factory, σ)

/-- Embeds getTrait, keyed by the composite key. -/
def CacheManager.getTrait (σ : CacheManager) (factoryName traitName : String)
    (now : Int) : Option Trait × CacheManager :=
  let key := factoryName ++ ":" ++ traitName
  match mapGet σ.traitCache key with
  | none => (none, σ)
  | some cached =>
      if σ.isCacheExpired cached.timestamp now then
        (none, { σ with traitCache := mapDelete σ.traitCache key })
      else
        (some cached.trait, σ)

/-- Embeds getFactoryFileLocation: the legacy-format projection of
getFactory (URI and line number). -/
def CacheManager.getFactoryFileLocation (σ : CacheManager) (factoryName : String)
    (now : Int) : Option (String × Nat) × CacheManager :=
  match σ.getFactory factoryName now with
  | (none, σ1) => (none, σ1)
  | (some f, σ1) => (some (f.location.uri, f.location.line), σ1)

/-- Embeds getTraitLocation: the legacy-format projection of getTrait
(URI, line number and factory name). -/
def CacheManager.getTraitLocation (σ : CacheManager) (factoryName traitName : String)
    (now : Int) : Option (String × Nat × String) × CacheManager :=
  match σ.getTrait factoryName traitName now with
  | (none, σ1) => (none, σ1)
  | (some t, σ1) => (some (t.location.uri, t.location.line, t.factoryName), σ1)

/-- Embeds cacheFactories: forEach cacheFactory. -/
def CacheManager.cacheFactories (σ : CacheManager) (factories : List Factory)
    (now : Int) : CacheManager :=
  factories.foldl (fun s f => s.cacheFactory f now) σ

/-- Embeds cacheTraits: forEach cacheTrait. -/
def CacheManager.cacheTraits (σ : CacheManager) (traits : List Trait)
    (now : Int) : CacheManager :=
  traits.foldl (fun s t => s.cacheTrait t now) σ

/-- Embeds removeFactory: delete the factory entry, collect the keys of every
trait whose factoryName matches, then delete those keys.  The file index is
not touched. -/
def CacheManager.removeFactory (σ : CacheManager) (factoryName : String) :
    CacheManager :=
  let traitsToRemove :=
    (σ.traitCache.filter (fun p => p.2.trait.factoryName = factoryName)).map
      (fun p => p.1)
  { σ with
    factoryCache := mapDelete σ.factoryCache factoryName
    traitCache := traitsToRemove.foldl (fun m k => mapDelete m k) σ.traitCache }

/-- Embeds clearFactoryCache. -/
def CacheManager.clearFactoryCache (σ : CacheManager) : CacheManager :=
  { σ with factoryCache := [] }

/-- Embeds clearTraitCache. -/
def CacheManager.clearTraitCache (σ : CacheManager) : CacheManager :=
  { σ with traitCache := [] }

/-- Embeds clearAll: clear both value caches, the file cache, and the
initialized flag. -/
def CacheManager.clearAll (σ : CacheManager) : CacheManager :=
  { σ.clearFactoryCache.clearTraitCache with fileCache := [], isInitialized := false }

/-- Embeds cleanupExpiredEntries: collect the expired keys of each value
cache at one instant, then delete them.  The file index is not touched. -/
def CacheManager.cleanupExpiredEntries (σ : CacheManager) (now : Int) : CacheManager :=
  let factoriesToRemove :=
    (σ.factoryCache.filter (fun p => σ.isCacheExpired p.2.timestamp now)).map
      (fun p => p.1)
  let traitsToRemove :=
    (σ.traitCache.filter (fun p => σ.isCacheExpired p.2.timestamp now)).map
      (fun p => p.1)
  { σ with
    factoryCache := factoriesToRemove.foldl (fun m k => mapDelete m k) σ.factoryCache
    traitCache := traitsToRemove.foldl (fun m k => mapDelete m k) σ.traitCache }

/-- Embeds setInitialized. -/
def CacheManager.setInitialized (σ : CacheManager) (initialized : Bool) : CacheManager :=
  { σ with isInitialized := initialized }

/-- Embeds setCacheTimeout: clamped below by 1000 ms. -/
def CacheManager.setCacheTimeout (σ : CacheManager) (timeoutMs : Int) : CacheManager :=
  { σ with cacheTimeout := max timeoutMs 1000 }

/-- One public mutating or lazily-mutating operation of the cache store, used
to quantify over arbitrary operation sequences. -/
inductive CacheOp where
  | cacheFactoryOp (f : Factory) (now : Int)
  | cacheTraitOp (t : Trait) (now : Int)
  | removeFactoryOp (name : String)
  | removeFileFromCacheOp (uri : String)
  | updateFileCacheOp (uri : String) (fs : List Factory) (ts : List Trait) (now : Int)
  | cleanupOp (now : Int)
  | getFactoryOp (name : String) (now : Int)
  | getTraitOp (factoryName traitName : String) (now : Int)
  | shouldUpdateFileOp (uri : String) (statResult : Option Int)
  | clearAllOp
  | setInitializedOp (b : Bool)
  | setCacheTimeoutOp (t : Int)

/-- State transition of one cache operation (lookups keep only their
lazy-expiry side effect). -/
def applyOp (σ : CacheManager) : CacheOp → CacheManager
  | .cacheFactoryOp f now => σ.cacheFactory f now
  | .cacheTraitOp t now => σ.cacheTrait t now
  | .removeFactoryOp name => σ.removeFactory name
  | .removeFileFromCacheOp uri => σ.removeFileFromCache uri
  | .updateFileCacheOp uri fs ts now => σ.updateFileCache uri fs ts now
  | .cleanupOp now => σ.cleanupExpiredEntries now
  | .getFactoryOp name now => (σ.getFactory name now).2
  | .getTraitOp fn tn now => (σ.getTrait fn tn now).2
  | .shouldUpdateFileOp uri statResult => (σ.shouldUpdateFile uri statResult).2
  | .clearAllOp => σ.clearAll
  | .setInitializedOp b => σ.setInitialized b
  | .setCacheTimeoutOp t => σ.setCacheTimeout t

/-- Run of a sequence of cache operations. -/
def runOps (σ : CacheManager) (ops : List CacheOp) : CacheManager :=
  ops.foldl applyOp σ

/-- An operation inserts only nonempty factory names.  Every name the
definition extractor produces matches [a-zA-Z0-9_]+ and is therefore
nonempty; an empty name would be falsy in JS and skip the attribution push
of addToFileCache while still being cached.  Trait keys always contain a
colon and need no such condition. -/
def CacheOp.wellNamed : CacheOp → Prop
  | .cacheFactoryOp f _ => f.name ≠ ""
  | .updateFileCacheOp _ fs _ _ => ∀ f ∈ fs, f.name ≠ ""
  | _ => True

/-! ## Pattern library (src/utils/regexPatterns.ts)

The patterns are JavaScript regexes; they are embedded as abstract syntax
trees and run by a backtracking engine that mirrors the JS semantics the
source relies on: leftmost match, preference order of alternatives (left
first), greedy and lazy quantifiers with backtracking, capture groups where
a later iteration of a group overwrites the earlier span, zero-width
lookahead, the word boundary over the word class [A-Za-z0-9_], and the
end-of-input anchor (no multiline flag is used in the source). -/

/-- Character class of the JS word class [A-Za-z0-9_] underlying `\b`
and of the explicit class [a-zA-Z0-9_] used by the patterns. -/
def isWordChar (c : Char) : Bool :=
  (('a' ≤ c && c ≤ 'z') || ('A' ≤ c && c ≤ 'Z') || ('0' ≤ c && c ≤ '9') || c = '_')

/-- Character class of the JS `\s` on the whitespace the sources contain
(space, tab, newline, carriage return, vertical tab, form feed). -/
def isSpaceJS (c : Char) : Bool :=
  (c = ' ' || c = '\t' || c = '\n' || c = '\r' || c = '\x0b' || c = '\x0c')

/-- Abstract syntax of the fragment of JS regexes used by the pattern
library. -/
inductive Re where
  | eps
  | cls (p : Char → Bool)
  | lit (s : List Char)
  | seq (a b : Re)
  | alt (a b : Re)
  | grp (idx : Nat) (r : Re)
  | starG (r : Re)
  | starL (r : Re)
  | opt (r : Re)
  | look (r : Re)
  | wb
  | eos

/-- Size of a pattern, used to bound the recursion depth of the engine. -/
def Re.size : Re → Nat
  | .eps => 1
  | .cls _ => 1
  | .lit _ => 1
  | .seq a b => a.size + b.size + 1
  | .alt a b => a.size + b.size + 1
  | .grp _ r => r.size + 1
  | .starG r => r.size + 1
  | .starL r => r.size + 1
  | .opt r => r.size + 1
  | .look r => r.size + 1
  | .wb => 1
  | .eos => 1

/-- Recorded capture spans: group index, start offset, end offset.  A fresh
capture is prepended, so the first entry for a group is its current value. -/
abbrev Caps := List (Nat × Nat × Nat)

/-- Backtracking matcher.  `mrun t fuel re i caps` returns the list of
possible (end offset, captures) continuations of a match of `re` starting at
offset `i` of `t`, in JS backtracking preference order; the head is the
result JS commits to.  The fuel only bounds the recursion depth and is chosen
large enough by the callers below. -/
def mrun (t : List Char) : Nat → Re → Nat → Caps → List (Nat × Caps)
  | 0, _, _, _ => []
  | fuel + 1, re, i, caps =>
    match re with
    | .eps => [(i, caps)]
    | .cls p =>
        match t.get? i with
        | some c => if p c then [(i + 1, caps)] else []
        | none => []
    | .lit s => if s.isPrefixOf (t.drop i) then [(i + s.length, caps)] else []
    | .seq a b => (mrun t fuel a i caps).flatMap (fun r => mrun t fuel b r.1 r.2)
    | .alt a b => mrun t fuel a i caps ++ mrun t fuel b i caps
    | .grp n r => (mrun t fuel r i caps).map (fun r2 => (r2.1, (n, i, r2.1) :: r2.2))
    | .starG r =>
        ((mrun t fuel r i caps).flatMap (fun r2 =>
          if i < r2.1 then mrun t fuel (.starG r) r2.1 r2.2 else [r2])) ++ [(i, caps)]
    | .starL r =>
        (i, caps) :: (mrun t fuel r i caps).flatMap (fun r2 =>
          if i < r2.1 then mrun t fuel (.starL r) r2.1 r2.2 else [])
    | .opt r => mrun t fuel r i caps ++ [(i, caps)]
    | .look r => if (mrun t fuel r i caps).isEmpty then [] else [(i, caps)]
    | .wb =>
        let wl := if i = 0 then false else
          match t.get? (i - 1) with
          | some c => isWordChar c
          | none => false
        let wr :=
          match t.get? i with
          | some c => isWordChar c
          | none => false
        if wl != wr then [(i, caps)] else []
    | .eos => if i = t.length then [(i, caps)] else []

/-- One JS regex match: start offset, end offset, captures. -/
structure RMatch where
  start : Nat
  stop : Nat
  caps : Caps
deriving DecidableEq

/-- Attempt of a match anchored at offset `i`, committing to the first
backtracking branch as JS does. -/
def tryAt (t : List Char) (re : Re) (i : Nat) : Option RMatch :=
  match mrun t ((re.size + 2) * (t.length + 2) * 2) re i [] with
  | [] => none
  | r :: _ => some ⟨i, r.1, r.2⟩

/-- Scan for the leftmost match at or after offset `i`, one start offset at a
time, as the JS engine does; the second argument counts the remaining start
offsets to try. -/
def findFrom (t : List Char) (re : Re) : Nat → Nat → Option RMatch
  | _, 0 => none
  | i, attempts + 1 =>
    match tryAt t re i with
    | some m => some m
    | none => if i < t.length then findFrom t re (i + 1) attempts else none

/-- Embeds `regex.exec(text)` on a global regex whose lastIndex is `i`. -/
def execFrom (t : List Char) (re : Re) (i : Nat) : Option RMatch :=
  findFrom t re i (t.length + 1 - i)

/-- Embeds the `while ((match = regex.exec(text)) !== null)` loop of the
sources: successive matches, each next scan starting at the previous match
end.  The patterns in use never match the empty string; the `max` keeps the
loop well defined anyway. -/
def execAllAux (t : List Char) (re : Re) : Nat → Nat → List RMatch
  | _, 0 => []
  | i, steps + 1 =>
    match execFrom t re i with
    | none => []
    | some m => m :: execAllAux t re (max m.stop (m.start + 1)) steps

/-- All matches of a global regex over `t`, in document order. -/
def execAll (t : List Char) (re : Re) : List RMatch :=
  execAllAux t re 0 (t.length + 1)

/-- Current span of a capture group. -/
def capLookup : Caps → Nat → Option (Nat × Nat)
  | [], _ => none
  | c :: rest, n => if c.1 = n then some (c.2.1, c.2.2) else capLookup rest n

/-- Embeds `match[n]`: the full match for 0, the captured slice for a group
that participated, undefined (`none`) otherwise. -/
def RMatch.group (m : RMatch) (t : List Char) (n : Nat) : Option (List Char) :=
  if n = 0 then some ((t.take m.stop).drop m.start)
  else
    match capLookup m.caps n with
    | some se => some ((t.take se.2).drop se.1)
    | none => none

/-- String form of `match[n]`. -/
def groupStr (t : List Char) (m : RMatch) (n : Nat) : Option String :=
  (m.group t n).map (fun l => ⟨l⟩)

/-- Sequencing of a list of pattern pieces. -/
def reSeq (l : List Re) : Re :=
  l.foldr .seq .eps

/-- Greedy plus, as JS `r+`: one occurrence then a greedy star. -/
def rePlus (r : Re) : Re :=
  .seq r (.starG r)

/-- Literal piece from a string. -/
def strLit (s : String) : Re :=
  .lit s.data

/-- Alternation of a list in JS preference order (leftmost first). -/
def altList : List Re → Re
  | [] => .eps
  | [r] => r
  | r :: rest => .alt r (altList rest)

/-- Embeds FACTORY_DEFINITION_PATTERN, the source text
factory\s+:([a-zA-Z0-9_]+)\b with the g flag: one capture group. -/
def factoryDefinitionRe : Re :=
  reSeq [strLit "factory", rePlus (.cls isSpaceJS), strLit ":",
    .grp 1 (rePlus (.cls isWordChar)), .wb]

/-- Embeds TRAIT_DEFINITION_PATTERN, the source text
trait\s+:([a-zA-Z0-9_]+)\s+do with the g flag. -/
def traitDefinitionRe : Re :=
  reSeq [strLit "trait", rePlus (.cls isSpaceJS), strLit ":",
    .grp 1 (rePlus (.cls isWordChar)), rePlus (.cls isSpaceJS), strLit "do"]

/-- Embeds FACTORY_BLOCK_PATTERN, the source text
factory\s+:([a-zA-Z0-9_]+)\s+do([\s\S]*?)(?=\n\s*(?:factory|end\s*$))
with the g flag: group 1 the name, group 2 the lazily grown body, stopped by
a lookahead for a newline, whitespace, and either a sibling header or a
terminating end at the end of input. -/
def factoryBlockRe : Re :=
  reSeq [strLit "factory", rePlus (.cls isSpaceJS), strLit ":",
    .grp 1 (rePlus (.cls isWordChar)), rePlus (.cls isSpaceJS), strLit "do",
    .grp 2 (.starL (.cls (fun _ => true))),
    .look (reSeq [strLit "\n", .starG (.cls isSpaceJS),
      .alt (strLit "factory") (reSeq [strLit "end", .starG (.cls isSpaceJS), .eos])])]

/-- Embeds the SUPPORTED_FACTORY_METHODS list of src/constants/defaults.ts. -/
def supportedFactoryMethods : List String :=
  ["create", "create_list", "build", "build_list", "build_stubbed",
    "build_stubbed_list"]

/-- Embeds getFactoryCallPattern(): the dynamically built source text
(?:m1|...|mk)\s*(?:\(\s*)?((:[a-zA-Z0-9_]+)(?:\s*,\s*(:[a-zA-Z0-9_]+))*)\s*(?:,\s*[^)]*)?(?:\)|\n|$)
with the g flag, where m1..mk are the supported method names in list order. -/
def factoryCallRe : Re :=
  reSeq [altList (supportedFactoryMethods.map strLit),
    .starG (.cls isSpaceJS),
    .opt (reSeq [strLit "(", .starG (.cls isSpaceJS)]),
    .grp 1 (reSeq [
      .grp 2 (.seq (strLit ":") (rePlus (.cls isWordChar))),
      .starG (reSeq [.starG (.cls isSpaceJS), strLit ",", .starG (.cls isSpaceJS),
        .grp 3 (.seq (strLit ":") (rePlus (.cls isWordChar)))])]),
    .starG (.cls isSpaceJS),
    .opt (reSeq [strLit ",", .starG (.cls isSpaceJS), .starG (.cls (fun c => c ≠ ')'))]),
    altList [strLit ")", strLit "\n", .eos]]

/-- Embeds TRAIT_REFERENCE_PATTERN, the source text :([a-zA-Z0-9_]+) with
the g flag. -/
def traitReferenceRe : Re :=
  .seq (strLit ":") (.grp 1 (rePlus (.cls isWordChar)))

/-! ## Definition extractor (src/services/factoryParser.ts) -/

/-- Embeds the parseText result record. -/
structure ParseResult where
  factories : List Factory
  traits : List Trait
deriving DecidableEq

/-- Embeds calculateLineNumber: the 0-based line of an offset is the number
of newline characters preceding it (the source splits the prefix on newline
and subtracts one from the piece count). -/
def calculateLineNumber (t : List Char) (index : Nat) : Nat :=
  (t.take index).count '\n'

/-- Embeds String.prototype.indexOf on character lists: offset of the first
occurrence of the needle, -1 when absent (never hit by the callers here). -/
def indexOfSub (hay needle : List Char) : Int :=
  if needle.isPrefixOf hay then 0
  else
    match hay with
    | [] => -1
    | _ :: rest =>
        match indexOfSub rest needle with
        | .negSucc m => .negSucc m
        | .ofNat i => .ofNat (i + 1)

/-- Embeds findFactoryDefinitions: run the factory definition pattern over
the text; for each match the source validates `match[2]` and skips the match
when it is falsy, then builds a Factory from `match[2]` and the line of the
match offset.  The pattern has a single capture group, so `match[2]` never
participates. -/
def findFactoryDefinitions (text : String) (fileUri : String) : List Factory :=
  let t := text.data
  (execAll t factoryDefinitionRe).filterMap (fun m =>
    match groupStr t m 2 with
    | none => none
    | some name =>
        if name = "" then none
        else some { name := name
                    location := { uri := fileUri, line := calculateLineNumber t m.start }
                    parentFactory := none
                    traits := [] })

/-- Embeds findTraitDefinitions: for each factory block match, scan the
captured body for trait headers; each trait offset is the block start plus
`match[0].indexOf(match[2])` plus the in-body offset, converted to a line. -/
def findTraitDefinitions (text : String) (fileUri : String) : List Trait :=
  let t := text.data
  (execAll t factoryBlockRe).flatMap (fun factoryMatch =>
    let factoryName := (groupStr t factoryMatch 1).getD ""
    let factoryBlock := (factoryMatch.group t 2).getD []
    let factoryHeaderLength :=
      indexOfSub ((t.take factoryMatch.stop).drop factoryMatch.start) factoryBlock
    (execAll factoryBlock traitDefinitionRe).map (fun traitMatch =>
      let traitName := (groupStr factoryBlock traitMatch 1).getD ""
      let traitIndex : Int :=
        (factoryMatch.start : Int) + factoryHeaderLength + (traitMatch.start : Int)
      { name := traitName
        location := { uri := fileUri, line := calculateLineNumber t traitIndex.toNat }
        factoryName := factoryName }))

/-- Index resolved by the name-to-factory map the source builds with
forEach/set: the last factory of the list bearing the name. -/
def lastIndexWithName (fs : List Factory) (n : String) : Option Nat :=
  ((fs.enum.filter (fun p => p.2.name == n)).map (fun p => p.1)).getLast?

/-- In-place update of one list element. -/
def addTraitAt (fs : List Factory) (i : Nat) (tr : Trait) : List Factory :=
  match fs.get? i with
  | some f => fs.set i (f.addTrait tr)
  | none => fs

/-- Embeds linkTraitsToFactories: the source builds a Map from factory name
to factory object (a later factory with the same name overwriting an earlier
one) and mutates the resolved object with addTrait; since addTrait never
changes a name, resolving each trait against the current list is the same. -/
def linkTraitsToFactories (factories : List Factory) (traits : List Trait) :
    List Factory :=
  traits.foldl (fun fs tr =>
    match lastIndexWithName fs tr.factoryName with
    | some i => addTraitAt fs i tr
    | none => fs) factories

/-- Embeds parseText: find the factories, find the traits, link, return. -/
def parseText (text : String) (fileUri : String) : ParseResult :=
  let factories := findFactoryDefinitions text fileUri
  let traits := findTraitDefinitions text fileUri
  { factories := linkTraitsToFactories factories traits, traits := traits }

/-- Embeds hasFactoryDefinition. -/
def hasFactoryDefinition (text : String) : Bool :=
  (execFrom text.data factoryDefinitionRe 0).isSome

/-- Embeds extractFactoryNames, which pushes `match[2]` of each match (an
undefined value, kept here as an option). -/
def extractFactoryNames (text : String) : List (Option String) :=
  (execAll text.data factoryDefinitionRe).map (fun m => groupStr text.data m 2)

/-! ## Reference resolver (src/providers/factoryLinkProvider.ts)

provideDocumentLinks builds editor links; a link is abstracted here to its
observable content: the kind of definition it resolves to, the target
location the command URI encodes (file URI and 0-based line), and, for a
trait link, the factory name under which the trait was looked up. -/

/-- Kind of a resolved reference. -/
inductive RefKind where
  | factoryKind
  | traitKind
deriving DecidableEq

/-- One resolved reference emitted by the resolver. -/
structure Reference where
  kind : RefKind
  targetUri : String
  targetLine : Nat
  contextFactoryName : Option String
deriving DecidableEq

/-- The factory link pushed for a call site: one Factory-kind reference when
the cache resolved the name, nothing otherwise (`if (factoryInfo)` in the
source). -/
def factoryRefOf (res1 : Option (String × Nat)) : List Reference :=
  match res1 with
  | some (uri, line) => [⟨.factoryKind, uri, line, none⟩]
  | none => []

/-- One iteration of the inner trait loop of provideDocumentLinks: resolve
the `:identifier` token as a trait of the call site factory name and push a
Trait-kind link only when found (`if (traitInfo)` in the source); the cache
state is threaded because the lookup lazily evicts an expired entry. -/
def traitRefStep (fullMatch : List Char) (factoryName : String) (now : Int)
    (acc : List Reference × CacheManager) (tm : RMatch) :
    List Reference × CacheManager :=
  let traitName := (groupStr fullMatch tm 1).getD ""
  let res2 := acc.2.getTraitLocation factoryName traitName now
  match res2.1 with
  | some (uri, line, _) =>
      (acc.1 ++ [⟨.traitKind, uri, line, some factoryName⟩], res2.2)
  | none => (acc.1, res2.2)

/-- Embeds the body of the per-call-site iteration of provideDocumentLinks:
`match[1]` is the symbol list, `match[2]` stripped of its leading colon is
the factory name; a factory link is pushed only when the cache resolves the
name; then the symbol list is rescanned for `:identifier` tokens, the first
(the factory symbol) is consumed and skipped, and each further token is
resolved through `traitRefStep`. -/
def refsForCallSite (t : List Char) (σ : CacheManager) (now : Int) (m : RMatch) :
    List Reference × CacheManager :=
  let fullMatch := (m.group t 1).getD []
  let factoryName : String := ⟨((m.group t 2).getD []).drop 1⟩
  let res := σ.getFactoryFileLocation factoryName now
  let traitMatches := (execAll fullMatch traitReferenceRe).drop 1
  let out := traitMatches.foldl (traitRefStep fullMatch factoryName now)
    (([] : List Reference), res.2)
  (factoryRefOf res.1 ++ out.1, out.2)

/-- One iteration of the outer call-site loop of provideDocumentLinks:
append the references of the call site and carry the threaded cache. -/
def callSiteStep (t : List Char) (now : Int)
    (acc : List Reference × CacheManager) (m : RMatch) :
    List Reference × CacheManager :=
  let res := refsForCallSite t acc.2 now m
  (acc.1 ++ res.1, res.2)

/-- Embeds provideDocumentLinks: an uninitialized cache yields no links;
otherwise every factory call site found in the text contributes its factory
reference followed by its trait references, in document order of the call
sites. -/
def provideDocumentLinks (text : String) (σ : CacheManager) (now : Int) :
    List Reference × CacheManager :=
  if σ.isInitialized = false then ([], σ)
  else
    (execAll text.data factoryCallRe).foldl (callSiteStep text.data now)
      (([] : List Reference), σ)

/-! ## Consistency predicates of the cache store -/

/-- Boolean form of the file-index soundness direction: every factory name
and trait key recorded under some file attribution is present in the
corresponding value cache. -/
def fileIndexSoundB (σ : CacheManager) : Bool :=
  σ.fileCache.all (fun p =>
    p.2.factories.all (fun n => (mapGet σ.factoryCache n).isSome) &&
    p.2.traits.all (fun k => (mapGet σ.traitCache k).isSome))

/-- Boolean form of the attribution-completeness direction: every cached
factory and trait is recorded under the attribution of the file of its
location. -/
def attributionCompleteB (σ : CacheManager) : Bool :=
  (σ.factoryCache.all (fun p =>
    match mapGet σ.fileCache p.2.factory.location.uri with
    | some fi => fi.factories.contains p.1
    | none => false)) &&
  (σ.traitCache.all (fun p =>
    match mapGet σ.fileCache p.2.trait.location.uri with
    | some fi => fi.traits.contains p.1
    | none => false))

/-- The attribution-completeness direction as a proposition. -/
def AttributionComplete (σ : CacheManager) : Prop :=
  attributionCompleteB σ = true

/-- The full mutual-consistency invariant of the specification: both
directions at once. -/
def MutuallyConsistent (σ : CacheManager) : Prop :=
  fileIndexSoundB σ = true ∧ attributionCompleteB σ = true

/-- Keys of an association list are pairwise distinct; JS maps always
satisfy this. -/
def NodupKeys {α : Type} (m : List (String × α)) : Prop :=
  (m.map (fun p => p.1)).Nodup

/-- The attribution-completeness direction in quantifier form, used by the
preservation proofs. -/
def AttributionCompleteE (σ : CacheManager) : Prop :=
  (∀ p ∈ σ.factoryCache,
    ∃ fi, mapGet σ.fileCache p.2.factory.location.uri = some fi ∧ p.1 ∈ fi.factories) ∧
  (∀ p ∈ σ.traitCache,
    ∃ fi, mapGet σ.fileCache p.2.trait.location.uri = some fi ∧ p.1 ∈ fi.traits)

/-- The last factory of a list bearing a given name: the entry the forEach
cacheFactory loop leaves in the cache for that name. -/
def lastNamed : List Factory → String → Option Factory
  | [], _ => none
  | f :: fs, n =>
      match lastNamed fs n with
      | some g => some g
      | none => if f.name = n then some f else none

/-- The last trait of a list bearing a given composite key: the entry the
forEach cacheTrait loop leaves in the cache for that key. -/
def lastKeyed : List Trait → String → Option Trait
  | [], _ => none
  | t :: ts, k =>
      match lastKeyed ts k with
      | some u => some u
      | none => if t.getKey = k then some t else none

/-! ## Concrete entities used by scenario theorems and witnesses -/

/-- A factory definition named user on line 0 of a factory file. -/
def exFactory : Factory :=
  { name := "user", location := { uri := "file:///spec/factories/users.rb", line := 0 } }

/-- A trait admin of factory user on line 1 of the same file. -/
def exTrait : Trait :=
  { name := "admin"
    location := { uri := "file:///spec/factories/users.rb", line := 1 }
    factoryName := "user" }

/-- A factory definition named post in a second factory file. -/
def exFactory2 : Factory :=
  { name := "post", location := { uri := "file:///spec/factories/posts.rb", line := 0 } }

/-- A trait draft of factory post in the second factory file. -/
def exTrait2 : Trait :=
  { name := "draft"
    location := { uri := "file:///spec/factories/posts.rb", line := 1 }
    factoryName := "post" }

/-- A replacement factory named new_user in the first factory file. -/
def exFactoryNew : Factory :=
  { name := "new_user", location := { uri := "file:///spec/factories/users.rb", line := 3 } }

/-- A populated, initialized cache holding exFactory and exTrait, inserted at
time 0. -/
def exState : CacheManager :=
  (((mkCacheManager none).cacheFactory exFactory 0).cacheTrait exTrait 0).setInitialized true

/-- The failing input of the factory-extraction claim: one well-formed
factory block. -/
def c1Input : String :=
  "factory :user do\nend"

/-- The failing input of the trait-linking claim: one factory block holding
one trait block. -/
def c6Input : String :=
  "factory :user do\n  trait :admin do\n  end\nend"

/-- The file identifier used in the parser scenario theorems. -/
def exUri : String :=
  "file:///spec/factories/users.rb"

/-- A cache holding only exFactory, cached at time 0. -/
def c4State : CacheManager :=
  (mkCacheManager none).cacheFactory exFactory 0

/-- The file index entry c4State records for the users file. -/
def c4FileInfo : FileCacheInfo :=
  { uri := exUri, lastModified := 0, factories := ["user"], traits := [] }

/-- A cache holding the factories user and post and one trait of each,
cached at time 0. -/
def c5State : CacheManager :=
  ((((mkCacheManager none).cacheFactory exFactory 0).cacheFactory exFactory2 0).cacheTrait
    exTrait 0).cacheTrait exTrait2 0

/-! ## Lemmas on the association-list map operations -/

theorem mapGet_mapSet_self {α : Type} (m : List (String × α)) (k : String) (v : α) :
    mapGet (mapSet m k v) k = some v := by
  induction m with
  | nil => simp [mapSet, mapGet]
  | cons p rest ih =>
      by_cases h : p.1 = k
      · simp [mapSet, h, mapGet]
      · simp [mapSet, h, mapGet, ih]

theorem mapGet_mapSet_ne {α : Type} (m : List (String × α)) (k : String) (v : α)
    (k' : String) (h : k' ≠ k) : mapGet (mapSet m k v) k' = mapGet m k' := by
  have h2 : ¬ k = k' := fun hh => h hh.symm
  induction m with
  | nil => simp [mapSet, mapGet, h2]
  | cons p rest ih =>
      by_cases hp : p.1 = k
      · have hpk : ¬ p.1 = k' := by rw [hp]; exact h2
        simp [mapSet, hp, mapGet, h2, hpk]
      · have hset : mapSet (p :: rest) k v = p :: mapSet rest k v := by
          simp [mapSet, hp]
        rw [hset]
        by_cases hp' : p.1 = k'
        · simp [mapGet, hp']
        · simp [mapGet, hp', ih]

theorem mem_mapSet {α : Type} {m : List (String × α)} {k : String} {v : α}
    {p : String × α} (h : p ∈ mapSet m k v) : p = (k, v) ∨ p ∈ m := by
  induction m with
  | nil => simpa [mapSet] using h
  | cons q rest ih =>
      by_cases hq : q.1 = k
      · simp only [mapSet, hq, if_pos] at h
        rcases List.mem_cons.mp h with h1 | h1
        · exact Or.inl h1
        · exact Or.inr (List.mem_cons_of_mem _ h1)
      · simp only [mapSet, hq, if_neg, not_false_iff] at h
        rcases List.mem_cons.mp h with h1 | h1
        · exact Or.inr (h1 ▸ List.mem_cons_self _ _)
        · rcases ih h1 with h2 | h2
          · exact Or.inl h2
          · exact Or.inr (List.mem_cons_of_mem _ h2)

theorem mapGet_mapDelete_self {α : Type} (m : List (String × α)) (k : String) :
    mapGet (mapDelete m k) k = none := by
  induction m with
  | nil => simp [mapDelete, mapGet]
  | cons p rest ih =>
      by_cases h : p.1 = k
      · simp [mapDelete, h, ih]
      · simp [mapDelete, h, mapGet, ih]

theorem mapGet_mapDelete_ne {α : Type} (m : List (String × α)) (k k' : String)
    (h : k' ≠ k) : mapGet (mapDelete m k) k' = mapGet m k' := by
  have h2 : ¬ k = k' := fun hh => h hh.symm
  induction m with
  | nil => simp [mapDelete]
  | cons p rest ih =>
      by_cases hp : p.1 = k
      · have hpk : ¬ p.1 = k' := by rw [hp]; exact h2
        simp [mapDelete, hp, mapGet, hpk, h2, ih]
      · simp only [mapDelete, hp, if_neg, not_false_iff, mapGet, ih]

theorem mem_mapDelete {α : Type} {m : List (String × α)} {k : String}
    {p : String × α} (h : p ∈ mapDelete m k) : p ∈ m := by
  induction m with
  | nil => simp [mapDelete] at h
  | cons q rest ih =>
      by_cases hq : q.1 = k
      · simp only [mapDelete, hq, if_pos] at h
        exact List.mem_cons_of_mem _ (ih h)
      · simp only [mapDelete, hq, if_neg, not_false_iff] at h
        rcases List.mem_cons.mp h with h1 | h1
        · exact h1 ▸ List.mem_cons_self _ _
        · exact List.mem_cons_of_mem _ (ih h1)

theorem mapGet_none_mapDelete {α : Type} (m : List (String × α)) (k k' : String)
    (h : mapGet m k = none) : mapGet (mapDelete m k') k = none := by
  by_cases hk : k = k'
  · subst hk; exact mapGet_mapDelete_self m k
  · rw [mapGet_mapDelete_ne m k' k hk]; exact h

theorem mapGet_none_foldl_mapDelete {α : Type} (ks : List String)
    (m : List (String × α)) (k : String) (h : mapGet m k = none) :
    mapGet (ks.foldl (fun m k => mapDelete m k) m) k = none := by
  induction ks generalizing m with
  | nil => exact h
  | cons k0 ks ih => exact ih _ (mapGet_none_mapDelete m k k0 h)

theorem mapGet_foldl_mapDelete_of_mem {α : Type} (ks : List String)
    (m : List (String × α)) (k : String) (h : k ∈ ks) :
    mapGet (ks.foldl (fun m k => mapDelete m k) m) k = none := by
  induction ks generalizing m with
  | nil => cases h
  | cons k0 ks ih =>
      rcases List.mem_cons.mp h with h1 | h1
      · subst h1
        exact mapGet_none_foldl_mapDelete ks _ k (mapGet_mapDelete_self m k)
      · exact ih _ h1

theorem mapGet_foldl_mapDelete_of_not_mem {α : Type} (ks : List String)
    (m : List (String × α)) (k : String) (h : k ∉ ks) :
    mapGet (ks.foldl (fun m k => mapDelete m k) m) k = mapGet m k := by
  induction ks generalizing m with
  | nil => rfl
  | cons k0 ks ih =>
      have hk0 : k ≠ k0 := fun hh => h (hh ▸ List.mem_cons_self _ _)
      have hks : k ∉ ks := fun hh => h (List.mem_cons_of_mem _ hh)
      rw [List.foldl_cons, ih _ hks, mapGet_mapDelete_ne m k0 k hk0]

theorem mem_foldl_mapDelete {α : Type} {ks : List String}
    {m : List (String × α)} {p : String × α}
    (h : p ∈ ks.foldl (fun m k => mapDelete m k) m) : p ∈ m := by
  induction ks generalizing m with
  | nil => exact h
  | cons k0 ks ih => exact mem_mapDelete (ih h)

theorem mapGet_eq_some_mem {α : Type} {m : List (String × α)} {k : String}
    {v : α} (h : mapGet m k = some v) : (k, v) ∈ m := by
  induction m with
  | nil => simp [mapGet] at h
  | cons p rest ih =>
      by_cases hp : p.1 = k
      · simp only [mapGet, hp, if_pos] at h
        have : p = (k, v) := by
          cases p; cases h; cases hp; rfl
        exact this ▸ List.mem_cons_self _ _
      · simp only [mapGet, hp, if_neg, not_false_iff] at h
        exact List.mem_cons_of_mem _ (ih h)

theorem mapGet_eq_some_of_mem {α : Type} {m : List (String × α)} {k : String}
    {v : α} (hnd : NodupKeys m) (h : (k, v) ∈ m) : mapGet m k = some v := by
  induction m with
  | nil => cases h
  | cons p rest ih =>
      have hnd2 : (p.1 :: rest.map (fun q => q.1)).Nodup := by
        simpa [NodupKeys] using hnd
      have hnd' : NodupKeys rest := (List.nodup_cons.mp hnd2).2
      rcases List.mem_cons.mp h with h1 | h1
      · simp [mapGet, ← h1]
      · by_cases hp : p.1 = k
        · exfalso
          have hmem : k ∈ rest.map (fun q => q.1) :=
            List.mem_map.mpr ⟨(k, v), h1, rfl⟩
          have hnotin : p.1 ∉ rest.map (fun q => q.1) := (List.nodup_cons.mp hnd2).1
          rw [hp] at hnotin
          exact hnotin hmem
        · simp [mapGet, hp, ih hnd' h1]

/-! ## Preservation of attribution completeness -/

theorem addToFileCache_factoryCache (σ : CacheManager) (u : String)
    (fn tk : Option String) (now : Int) :
    (σ.addToFileCache u fn tk now).factoryCache = σ.factoryCache := rfl

theorem addToFileCache_traitCache (σ : CacheManager) (u : String)
    (fn tk : Option String) (now : Int) :
    (σ.addToFileCache u fn tk now).traitCache = σ.traitCache := rfl

theorem addToFileCache_fileCache_ne (σ : CacheManager) (u : String)
    (fn tk : Option String) (now : Int) (u' : String) (h : u' ≠ u) :
    mapGet (σ.addToFileCache u fn tk now).fileCache u' = mapGet σ.fileCache u' :=
  mapGet_mapSet_ne _ _ _ _ h

theorem addToFileCache_mem_factories (σ : CacheManager) (u : String)
    (fn tk : Option String) (now : Int) (x : String) (fi : FileCacheInfo)
    (h : mapGet σ.fileCache u = some fi) (hx : x ∈ fi.factories) :
    ∃ fi2, mapGet (σ.addToFileCache u fn tk now).fileCache u = some fi2 ∧
      x ∈ fi2.factories := by
  simp only [CacheManager.addToFileCache, h]
  rcases fn with _ | n <;> rcases tk with _ | kk <;>
    refine ⟨_, mapGet_mapSet_self _ _ _, ?_⟩ <;>
    (repeat' split)
  all_goals simp_all [List.mem_append, List.elem_iff,
    apply_ite FileCacheInfo.factories, apply_ite FileCacheInfo.traits]

theorem addToFileCache_mem_traits (σ : CacheManager) (u : String)
    (fn tk : Option String) (now : Int) (x : String) (fi : FileCacheInfo)
    (h : mapGet σ.fileCache u = some fi) (hx : x ∈ fi.traits) :
    ∃ fi2, mapGet (σ.addToFileCache u fn tk now).fileCache u = some fi2 ∧
      x ∈ fi2.traits := by
  simp only [CacheManager.addToFileCache, h]
  rcases fn with _ | n <;> rcases tk with _ | kk <;>
    refine ⟨_, mapGet_mapSet_self _ _ _, ?_⟩ <;>
    (repeat' split)
  all_goals simp_all [List.mem_append, List.elem_iff,
    apply_ite FileCacheInfo.factories, apply_ite FileCacheInfo.traits]

theorem addToFileCache_new_factory (σ : CacheManager) (u : String)
    (n : String) (tk : Option String) (now : Int) (hn : n ≠ "") :
    ∃ fi2, mapGet (σ.addToFileCache u (some n) tk now).fileCache u = some fi2 ∧
      n ∈ fi2.factories := by
  simp only [CacheManager.addToFileCache]
  rcases h : mapGet σ.fileCache u with _ | fi0 <;> rcases tk with _ | kk <;>
    refine ⟨_, mapGet_mapSet_self _ _ _, ?_⟩ <;>
    (repeat' split)
  all_goals simp_all [List.mem_append, List.elem_iff,
    apply_ite FileCacheInfo.factories, apply_ite FileCacheInfo.traits]

theorem addToFileCache_new_trait (σ : CacheManager) (u : String)
    (fn : Option String) (kk : String) (now : Int) (hk : kk ≠ "") :
    ∃ fi2, mapGet (σ.addToFileCache u fn (some kk) now).fileCache u = some fi2 ∧
      kk ∈ fi2.traits := by
  simp only [CacheManager.addToFileCache]
  rcases h : mapGet σ.fileCache u with _ | fi0 <;> rcases fn with _ | n <;>
    refine ⟨_, mapGet_mapSet_self _ _ _, ?_⟩ <;>
    (repeat' split)
  all_goals simp_all [List.mem_append, List.elem_iff,
    apply_ite FileCacheInfo.factories, apply_ite FileCacheInfo.traits]

theorem mem_mapDelete_ne {α : Type} {m : List (String × α)} {k : String}
    {p : String × α} (h : p ∈ mapDelete m k) : p.1 ≠ k := by
  induction m with
  | nil => simp [mapDelete] at h
  | cons q rest ih =>
      by_cases hq : q.1 = k
      · simp only [mapDelete, hq, if_pos] at h
        exact ih h
      · simp only [mapDelete, hq, if_neg, not_false_iff] at h
        rcases List.mem_cons.mp h with h1 | h1
        · rw [h1]; exact hq
        · exact ih h1

theorem mem_foldl_mapDelete_not_mem {α : Type} {ks : List String}
    {m : List (String × α)} {p : String × α}
    (h : p ∈ ks.foldl (fun m k => mapDelete m k) m) : p.1 ∉ ks := by
  induction ks generalizing m with
  | nil => simp
  | cons k0 ks ih =>
      intro hmem
      rcases List.mem_cons.mp hmem with h1 | h1
      · have hp : p ∈ mapDelete m k0 := mem_foldl_mapDelete h
        exact mem_mapDelete_ne hp h1
      · exact ih h h1

theorem cacheFactory_eq (σ : CacheManager) (f : Factory) (now : Int) :
    σ.cacheFactory f now =
      CacheManager.addToFileCache
        { σ with factoryCache := mapSet σ.factoryCache f.name ⟨f, now⟩ }
        f.location.uri (some f.name) none now := rfl

theorem cacheTrait_eq (σ : CacheManager) (t : Trait) (now : Int) :
    σ.cacheTrait t now =
      CacheManager.addToFileCache
        { σ with traitCache := mapSet σ.traitCache t.getKey ⟨t, now⟩ }
        t.location.uri none (some t.getKey) now := rfl

theorem getKey_ne_empty (t : Trait) : t.getKey ≠ "" := by
  intro h
  have hl := congrArg String.length h
  simp [Trait.getKey] at hl
  exact absurd hl.1.2 (by decide)

theorem ace_cacheFactory (σ : CacheManager) (f : Factory) (now : Int)
    (hf0 : f.name ≠ "") (h : AttributionCompleteE σ) :
    AttributionCompleteE (σ.cacheFactory f now) := by
  obtain ⟨hf, ht⟩ := h
  rw [cacheFactory_eq]
  constructor
  · intro p hp
    have hp1 : p ∈ mapSet σ.factoryCache f.name ⟨f, now⟩ := hp
    rcases mem_mapSet hp1 with rfl | hmem
    · obtain ⟨fi2, hget, hmem2⟩ :=
        addToFileCache_new_factory
          { σ with factoryCache := mapSet σ.factoryCache f.name ⟨f, now⟩ }
          f.location.uri f.name none now hf0
      exact ⟨fi2, hget, hmem2⟩
    · obtain ⟨fi, hget, hx⟩ := hf p hmem
      by_cases hu : p.2.factory.location.uri = f.location.uri
      · have hget1 : mapGet σ.fileCache f.location.uri = some fi := by
          rw [← hu]; exact hget
        obtain ⟨fi2, hg2, hx2⟩ :=
          addToFileCache_mem_factories
            { σ with factoryCache := mapSet σ.factoryCache f.name ⟨f, now⟩ }
            f.location.uri (some f.name) none now p.1 fi hget1 hx
        refine ⟨fi2, ?_, hx2⟩
        rw [hu]
        exact hg2
      · refine ⟨fi, ?_, hx⟩
        rw [addToFileCache_fileCache_ne _ _ _ _ _ _ hu]
        exact hget
  · intro p hp
    have hp1 : p ∈ σ.traitCache := hp
    obtain ⟨fi, hget, hx⟩ := ht p hp1
    by_cases hu : p.2.trait.location.uri = f.location.uri
    · have hget1 : mapGet σ.fileCache f.location.uri = some fi := by
        rw [← hu]; exact hget
      obtain ⟨fi2, hg2, hx2⟩ :=
        addToFileCache_mem_traits
          { σ with factoryCache := mapSet σ.factoryCache f.name ⟨f, now⟩ }
          f.location.uri (some f.name) none now p.1 fi hget1 hx
      refine ⟨fi2, ?_, hx2⟩
      rw [hu]
      exact hg2
    · refine ⟨fi, ?_, hx⟩
      rw [addToFileCache_fileCache_ne _ _ _ _ _ _ hu]
      exact hget

theorem ace_cacheTrait (σ : CacheManager) (t : Trait) (now : Int)
    (h : AttributionCompleteE σ) : AttributionCompleteE (σ.cacheTrait t now) := by
  obtain ⟨hf, ht⟩ := h
  rw [cacheTrait_eq]
  constructor
  · intro p hp
    have hp1 : p ∈ σ.factoryCache := hp
    obtain ⟨fi, hget, hx⟩ := hf p hp1
    by_cases hu : p.2.factory.location.uri = t.location.uri
    · have hget1 : mapGet σ.fileCache t.location.uri = some fi := by
        rw [← hu]; exact hget
      obtain ⟨fi2, hg2, hx2⟩ :=
        addToFileCache_mem_factories
          { σ with traitCache := mapSet σ.traitCache t.getKey ⟨t, now⟩ }
          t.location.uri none (some t.getKey) now p.1 fi hget1 hx
      refine ⟨fi2, ?_, hx2⟩
      rw [hu]
      exact hg2
    · refine ⟨fi, ?_, hx⟩
      rw [addToFileCache_fileCache_ne _ _ _ _ _ _ hu]
      exact hget
  · intro p hp
    have hp1 : p ∈ mapSet σ.traitCache t.getKey ⟨t, now⟩ := hp
    rcases mem_mapSet hp1 with rfl | hmem
    · obtain ⟨fi2, hget, hmem2⟩ :=
        addToFileCache_new_trait
          { σ with traitCache := mapSet σ.traitCache t.getKey ⟨t, now⟩ }
          t.location.uri none t.getKey now (getKey_ne_empty t)
      exact ⟨fi2, hget, hmem2⟩
    · obtain ⟨fi, hget, hx⟩ := ht p hmem
      by_cases hu : p.2.trait.location.uri = t.location.uri
      · have hget1 : mapGet σ.fileCache t.location.uri = some fi := by
          rw [← hu]; exact hget
        obtain ⟨fi2, hg2, hx2⟩ :=
          addToFileCache_mem_traits
            { σ with traitCache := mapSet σ.traitCache t.getKey ⟨t, now⟩ }
            t.location.uri none (some t.getKey) now p.1 fi hget1 hx
        refine ⟨fi2, ?_, hx2⟩
        rw [hu]
        exact hg2
      · refine ⟨fi, ?_, hx⟩
        rw [addToFileCache_fileCache_ne _ _ _ _ _ _ hu]
        exact hget

theorem ace_shrink (σ σ' : CacheManager)
    (hfc : ∀ p ∈ σ'.factoryCache, p ∈ σ.factoryCache)
    (htc : ∀ p ∈ σ'.traitCache, p ∈ σ.traitCache)
    (hfile : σ'.fileCache = σ.fileCache)
    (h : AttributionCompleteE σ) : AttributionCompleteE σ' := by
  obtain ⟨hf, ht⟩ := h
  constructor
  · intro p hp
    obtain ⟨fi, hget, hx⟩ := hf p (hfc p hp)
    exact ⟨fi, by rw [hfile]; exact hget, hx⟩
  · intro p hp
    obtain ⟨fi, hget, hx⟩ := ht p (htc p hp)
    exact ⟨fi, by rw [hfile]; exact hget, hx⟩

theorem ace_removeFactory (σ : CacheManager) (n : String)
    (h : AttributionCompleteE σ) : AttributionCompleteE (σ.removeFactory n) := by
  refine ace_shrink σ _ ?_ ?_ rfl h
  · intro p hp
    have hp1 : p ∈ mapDelete σ.factoryCache n := hp
    exact mem_mapDelete hp1
  · intro p hp
    have hp1 : p ∈
        (((σ.traitCache.filter (fun q => q.2.trait.factoryName = n)).map
          (fun q => q.1)).foldl (fun m k => mapDelete m k) σ.traitCache) := hp
    exact mem_foldl_mapDelete hp1

theorem ace_cleanup (σ : CacheManager) (now : Int)
    (h : AttributionCompleteE σ) : AttributionCompleteE (σ.cleanupExpiredEntries now) := by
  refine ace_shrink σ _ ?_ ?_ rfl h
  · intro p hp
    have hp1 : p ∈
        (((σ.factoryCache.filter (fun q => σ.isCacheExpired q.2.timestamp now)).map
          (fun q => q.1)).foldl (fun m k => mapDelete m k) σ.factoryCache) := hp
    exact mem_foldl_mapDelete hp1
  · intro p hp
    have hp1 : p ∈
        (((σ.traitCache.filter (fun q => σ.isCacheExpired q.2.timestamp now)).map
          (fun q => q.1)).foldl (fun m k => mapDelete m k) σ.traitCache) := hp
    exact mem_foldl_mapDelete hp1

theorem ace_getFactory (σ : CacheManager) (n : String) (now : Int)
    (h : AttributionCompleteE σ) : AttributionCompleteE (σ.getFactory n now).2 := by
  rcases hg : mapGet σ.factoryCache n with _ | cached
  · have he : (σ.getFactory n now).2 = σ := by
      simp [CacheManager.getFactory, hg]
    rw [he]; exact h
  · by_cases hex : σ.isCacheExpired cached.timestamp now = true
    · have he : (σ.getFactory n now).2 =
          { σ with factoryCache := mapDelete σ.factoryCache n } := by
        simp [CacheManager.getFactory, hg, hex]
      rw [he]
      exact ace_shrink σ _ (fun p hp => mem_mapDelete hp) (fun p hp => hp) rfl h
    · have he : (σ.getFactory n now).2 = σ := by
        simp [CacheManager.getFactory, hg, hex]
      rw [he]; exact h

theorem ace_getTrait (σ : CacheManager) (fn tn : String) (now : Int)
    (h : AttributionCompleteE σ) : AttributionCompleteE (σ.getTrait fn tn now).2 := by
  rcases hg : mapGet σ.traitCache (fn ++ ":" ++ tn) with _ | cached
  · have he : (σ.getTrait fn tn now).2 = σ := by
      simp [CacheManager.getTrait, hg]
    rw [he]; exact h
  · by_cases hex : σ.isCacheExpired cached.timestamp now = true
    · have he : (σ.getTrait fn tn now).2 =
          { σ with traitCache := mapDelete σ.traitCache (fn ++ ":" ++ tn) } := by
        simp [CacheManager.getTrait, hg, hex]
      rw [he]
      exact ace_shrink σ _ (fun p hp => hp) (fun p hp => mem_mapDelete hp) rfl h
    · have he : (σ.getTrait fn tn now).2 = σ := by
        simp [CacheManager.getTrait, hg, hex]
      rw [he]; exact h

theorem ace_removeFileFromCache (σ : CacheManager) (u : String)
    (h : AttributionCompleteE σ) : AttributionCompleteE (σ.removeFileFromCache u) := by
  obtain ⟨hf, ht⟩ := h
  rcases hg : mapGet σ.fileCache u with _ | fi
  · have he : σ.removeFileFromCache u = σ := by
      simp [CacheManager.removeFileFromCache, hg]
    rw [he]; exact ⟨hf, ht⟩
  · have he : σ.removeFileFromCache u =
        { σ with
          factoryCache := fi.factories.foldl (fun m n => mapDelete m n) σ.factoryCache
          traitCache := fi.traits.foldl (fun m k => mapDelete m k) σ.traitCache
          fileCache := mapDelete σ.fileCache u } := by
      simp [CacheManager.removeFileFromCache, hg]
    rw [he]
    constructor
    · intro p hp
      have hp0 : p ∈ fi.factories.foldl (fun m n => mapDelete m n) σ.factoryCache := hp
      have hp1 : p ∈ σ.factoryCache := mem_foldl_mapDelete hp0
      have hp2 : p.1 ∉ fi.factories := mem_foldl_mapDelete_not_mem hp0
      obtain ⟨fi0, hget, hx⟩ := hf p hp1
      by_cases hu : p.2.factory.location.uri = u
      · exfalso
        rw [hu, hg] at hget
        cases hget
        exact hp2 hx
      · refine ⟨fi0, ?_, hx⟩
        show mapGet (mapDelete σ.fileCache u) p.2.factory.location.uri = some fi0
        rw [mapGet_mapDelete_ne σ.fileCache u _ hu]
        exact hget
    · intro p hp
      have hp0 : p ∈ fi.traits.foldl (fun m k => mapDelete m k) σ.traitCache := hp
      have hp1 : p ∈ σ.traitCache := mem_foldl_mapDelete hp0
      have hp2 : p.1 ∉ fi.traits := mem_foldl_mapDelete_not_mem hp0
      obtain ⟨fi0, hget, hx⟩ := ht p hp1
      by_cases hu : p.2.trait.location.uri = u
      · exfalso
        rw [hu, hg] at hget
        cases hget
        exact hp2 hx
      · refine ⟨fi0, ?_, hx⟩
        show mapGet (mapDelete σ.fileCache u) p.2.trait.location.uri = some fi0
        rw [mapGet_mapDelete_ne σ.fileCache u _ hu]
        exact hget

theorem ace_clearAll (σ : CacheManager) : AttributionCompleteE σ.clearAll := by
  constructor
  · intro p hp
    exact absurd hp (List.not_mem_nil p)
  · intro p hp
    exact absurd hp (List.not_mem_nil p)

theorem ace_cacheFactories (σ : CacheManager) (fs : List Factory) (now : Int)
    (hfs : ∀ f ∈ fs, f.name ≠ "") (h : AttributionCompleteE σ) :
    AttributionCompleteE (σ.cacheFactories fs now) := by
  induction fs generalizing σ with
  | nil => exact h
  | cons f fs ih =>
      exact ih (σ.cacheFactory f now)
        (fun g hg => hfs g (List.mem_cons_of_mem _ hg))
        (ace_cacheFactory σ f now (hfs f (List.mem_cons_self _ _)) h)

theorem ace_cacheTraits (σ : CacheManager) (ts : List Trait) (now : Int)
    (h : AttributionCompleteE σ) : AttributionCompleteE (σ.cacheTraits ts now) := by
  induction ts generalizing σ with
  | nil => exact h
  | cons t ts ih => exact ih _ (ace_cacheTrait σ t now h)

theorem updateFileCache_eq (σ : CacheManager) (u : String) (fs : List Factory)
    (ts : List Trait) (now : Int) :
    σ.updateFileCache u fs ts now =
      ((σ.removeFileFromCache u).cacheFactories fs now).cacheTraits ts now := rfl

theorem ace_updateFileCache (σ : CacheManager) (u : String) (fs : List Factory)
    (ts : List Trait) (now : Int) (hfs : ∀ f ∈ fs, f.name ≠ "")
    (h : AttributionCompleteE σ) :
    AttributionCompleteE (σ.updateFileCache u fs ts now) := by
  rw [updateFileCache_eq]
  exact ace_cacheTraits _ _ _
    (ace_cacheFactories _ _ _ hfs (ace_removeFileFromCache σ u h))

theorem ace_shouldUpdateFile (σ : CacheManager) (u : String) (statResult : Option Int)
    (h : AttributionCompleteE σ) : AttributionCompleteE (σ.shouldUpdateFile u statResult).2 := by
  rcases hg : mapGet σ.fileCache u with _ | fi
  · have he : (σ.shouldUpdateFile u statResult).2 = σ := by
      simp [CacheManager.shouldUpdateFile, hg]
    rw [he]; exact h
  · rcases statResult with _ | mtime
    · have he : (σ.shouldUpdateFile u none).2 = σ.removeFileFromCache u := by
        simp [CacheManager.shouldUpdateFile, hg]
      rw [he]; exact ace_removeFileFromCache σ u h
    · have he : (σ.shouldUpdateFile u (some mtime)).2 = σ := by
        simp [CacheManager.shouldUpdateFile, hg]
      rw [he]; exact h

theorem ace_applyOp (σ : CacheManager) (op : CacheOp) (hop : op.wellNamed)
    (h : AttributionCompleteE σ) : AttributionCompleteE (applyOp σ op) := by
  cases op with
  | cacheFactoryOp f now => exact ace_cacheFactory σ f now hop h
  | cacheTraitOp t now => exact ace_cacheTrait σ t now h
  | removeFactoryOp name => exact ace_removeFactory σ name h
  | removeFileFromCacheOp uri => exact ace_removeFileFromCache σ uri h
  | updateFileCacheOp uri fs ts now => exact ace_updateFileCache σ uri fs ts now hop h
  | cleanupOp now => exact ace_cleanup σ now h
  | getFactoryOp name now => exact ace_getFactory σ name now h
  | getTraitOp fn tn now => exact ace_getTrait σ fn tn now h
  | shouldUpdateFileOp uri statResult => exact ace_shouldUpdateFile σ uri statResult h
  | clearAllOp => exact ace_clearAll σ
  | setInitializedOp b => exact ace_shrink σ _ (fun p hp => hp) (fun p hp => hp) rfl h
  | setCacheTimeoutOp t => exact ace_shrink σ _ (fun p hp => hp) (fun p hp => hp) rfl h

/-! ## Characterizations of bulk insertion and per-file removal -/

theorem cacheFactories_traitCache (σ : CacheManager) (fs : List Factory) (now : Int) :
    (σ.cacheFactories fs now).traitCache = σ.traitCache := by
  induction fs generalizing σ with
  | nil => rfl
  | cons f fs ih => exact ih (σ.cacheFactory f now)

theorem cacheTraits_factoryCache (σ : CacheManager) (ts : List Trait) (now : Int) :
    (σ.cacheTraits ts now).factoryCache = σ.factoryCache := by
  induction ts generalizing σ with
  | nil => rfl
  | cons t ts ih => exact ih (σ.cacheTrait t now)

theorem mapGet_cacheFactories (σ : CacheManager) (fs : List Factory) (now : Int)
    (n : String) :
    mapGet (σ.cacheFactories fs now).factoryCache n =
      match lastNamed fs n with
      | some f => some ⟨f, now⟩
      | none => mapGet σ.factoryCache n := by
  induction fs generalizing σ with
  | nil => rfl
  | cons f fs ih =>
      have hstep : σ.cacheFactories (f :: fs) now =
          (σ.cacheFactory f now).cacheFactories fs now := rfl
      rw [hstep, ih]
      rcases hl : lastNamed fs n with _ | g
      · simp only [lastNamed, hl]
        have hfc : (σ.cacheFactory f now).factoryCache =
            mapSet σ.factoryCache f.name ⟨f, now⟩ := rfl
        rw [hfc]
        by_cases hn : f.name = n
        · subst hn
          simp [mapGet_mapSet_self]
        · rw [mapGet_mapSet_ne _ _ _ _ (fun hh => hn hh.symm)]
          simp [hn]
      · simp only [lastNamed, hl]

theorem mapGet_cacheTraits (σ : CacheManager) (ts : List Trait) (now : Int)
    (k : String) :
    mapGet (σ.cacheTraits ts now).traitCache k =
      match lastKeyed ts k with
      | some t => some ⟨t, now⟩
      | none => mapGet σ.traitCache k := by
  induction ts generalizing σ with
  | nil => rfl
  | cons t ts ih =>
      have hstep : σ.cacheTraits (t :: ts) now =
          (σ.cacheTrait t now).cacheTraits ts now := rfl
      rw [hstep, ih]
      rcases hl : lastKeyed ts k with _ | u
      · simp only [lastKeyed, hl]
        have htc : (σ.cacheTrait t now).traitCache =
            mapSet σ.traitCache t.getKey ⟨t, now⟩ := rfl
        rw [htc]
        by_cases hk : t.getKey = k
        · subst hk
          simp [mapGet_mapSet_self]
        · rw [mapGet_mapSet_ne _ _ _ _ (fun hh => hk hh.symm)]
          simp [hk]
      · simp only [lastKeyed, hl]

theorem removeFileFromCache_factoryCache_some (σ : CacheManager) (u : String)
    (fi : FileCacheInfo) (hg : mapGet σ.fileCache u = some fi) :
    (σ.removeFileFromCache u).factoryCache =
      fi.factories.foldl (fun m n => mapDelete m n) σ.factoryCache := by
  simp [CacheManager.removeFileFromCache, hg]

theorem removeFileFromCache_traitCache_some (σ : CacheManager) (u : String)
    (fi : FileCacheInfo) (hg : mapGet σ.fileCache u = some fi) :
    (σ.removeFileFromCache u).traitCache =
      fi.traits.foldl (fun m k => mapDelete m k) σ.traitCache := by
  simp [CacheManager.removeFileFromCache, hg]

theorem removeFileFromCache_fileCache_some (σ : CacheManager) (u : String)
    (fi : FileCacheInfo) (hg : mapGet σ.fileCache u = some fi) :
    (σ.removeFileFromCache u).fileCache = mapDelete σ.fileCache u := by
  simp [CacheManager.removeFileFromCache, hg]

theorem removeFileFromCache_of_none (σ : CacheManager) (u : String)
    (hg : mapGet σ.fileCache u = none) : σ.removeFileFromCache u = σ := by
  simp [CacheManager.removeFileFromCache, hg]

/-! ## Shape of the resolver output -/

theorem factoryRefOf_shape (o : Option (String × Nat)) :
    factoryRefOf o = [] ∨
      ∃ r, factoryRefOf o = [r] ∧ r.kind = RefKind.factoryKind := by
  rcases o with _ | ⟨uri, line⟩
  · left; rfl
  · right; exact ⟨_, rfl, rfl⟩

theorem traitRefStep_shape (fm : List Char) (fn : String) (now : Int)
    (acc : List Reference × CacheManager) (tm : RMatch) :
    (traitRefStep fm fn now acc tm).1 = acc.1 ∨
      ∃ r, (traitRefStep fm fn now acc tm).1 = acc.1 ++ [r] ∧
        r.kind = RefKind.traitKind := by
  simp only [traitRefStep]
  rcases h : (acc.2.getTraitLocation fn ((groupStr fm tm 1).getD "") now).1 with
    _ | ⟨uri, line, f3⟩
  · left; rfl
  · right; exact ⟨_, rfl, rfl⟩

theorem traitRefStep_fold_kind (fm : List Char) (fn : String) (now : Int)
    (tms : List RMatch) (acc : List Reference × CacheManager)
    (hacc : ∀ r ∈ acc.1, r.kind = RefKind.traitKind) :
    ∀ r ∈ (tms.foldl (traitRefStep fm fn now) acc).1,
      r.kind = RefKind.traitKind := by
  induction tms generalizing acc with
  | nil => exact hacc
  | cons tm tms ih =>
      apply ih
      rcases traitRefStep_shape fm fn now acc tm with h | ⟨r0, h, hk⟩
      · rw [h]; exact hacc
      · rw [h]
        intro r hr
        rcases List.mem_append.mp hr with h1 | h1
        · exact hacc r h1
        · rw [List.mem_singleton.mp h1]
          exact hk

theorem refsForCallSite_shape (t : List Char) (σ : CacheManager) (now : Int)
    (m : RMatch) :
    ∃ fpart tpart : List Reference,
      (refsForCallSite t σ now m).1 = fpart ++ tpart ∧
      (fpart = [] ∨ ∃ r, fpart = [r] ∧ r.kind = RefKind.factoryKind) ∧
      (∀ r ∈ tpart, r.kind = RefKind.traitKind) := by
  refine ⟨factoryRefOf
      (σ.getFactoryFileLocation ⟨((m.group t 2).getD []).drop 1⟩ now).1,
    (((execAll ((m.group t 1).getD []) traitReferenceRe).drop 1).foldl
      (traitRefStep ((m.group t 1).getD []) ⟨((m.group t 2).getD []).drop 1⟩ now)
      (([] : List Reference),
        (σ.getFactoryFileLocation ⟨((m.group t 2).getD []).drop 1⟩ now).2)).1,
    rfl, factoryRefOf_shape _, ?_⟩
  apply traitRefStep_fold_kind
  intro r hr
  exact absurd hr (List.not_mem_nil r)

theorem links_join (t : List Char) (now : Int) (ms : List RMatch)
    (acc : List Reference × CacheManager) :
    ∃ siteRefs : List (List Reference),
      (ms.foldl (callSiteStep t now) acc).1 = acc.1 ++ siteRefs.flatten ∧
      ∀ rs ∈ siteRefs, ∃ fpart tpart : List Reference, rs = fpart ++ tpart ∧
        (fpart = [] ∨ ∃ r, fpart = [r] ∧ r.kind = RefKind.factoryKind) ∧
        (∀ r ∈ tpart, r.kind = RefKind.traitKind) := by
  induction ms generalizing acc with
  | nil => exact ⟨[], by simp, by simp⟩
  | cons m ms ih =>
      obtain ⟨S, h1, h2⟩ := ih (callSiteStep t now acc m)
      obtain ⟨fp, tp, hs, hfp, htp⟩ := refsForCallSite_shape t acc.2 now m
      refine ⟨(refsForCallSite t acc.2 now m).1 :: S, ?_, ?_⟩
      · rw [List.foldl_cons, h1]
        have hstep : (callSiteStep t now acc m).1 =
            acc.1 ++ (refsForCallSite t acc.2 now m).1 := rfl
        rw [hstep]
        simp [List.append_assoc]
      · intro rs hrs
        rcases List.mem_cons.mp hrs with h | h
        · exact h ▸ ⟨fp, tp, hs, hfp, htp⟩
        · exact h2 rs h

/-! ## Claim theorems -/

/-- C1: the claim states that parseText returns one Factory entity per
well-formed factory block, in document order, at the correct 0-based line.
The code contradicts its own unit tests here: FACTORY_DEFINITION_PATTERN
has a single capture group, while findFactoryDefinitions validates and reads
`match[2]`, which never participates, so every match is skipped.  On the
failing input, one well-formed block whose header the pattern does match,
parseText returns no factories at all (and extractFactoryNames pushes an
undefined per match for the same reason). -/
theorem c1_factory_extraction_bug :
    hasFactoryDefinition c1Input = true ∧
    (execAll c1Input.data factoryDefinitionRe).length = 1 ∧
    extractFactoryNames c1Input = [none] ∧
    (parseText c1Input exUri).factories = [] := by
  refine ⟨by decide, by decide, by decide, by decide⟩

/-- C2 (amended): of the two directions of the file-index consistency
invariant only attribution completeness survives, and only for operation
sequences that insert nonempty factory names (every name the extractor
produces is nonempty): every cached factory and trait stays recorded under
the attribution of its location file.  An empty factory name is falsy in
JS, so addToFileCache would skip its attribution push while cacheFactory
still stores it.  The converse direction fails even for well-formed names,
see the counterexample. -/
theorem c2_attribution_invariant (σ : CacheManager) (ops : List CacheOp)
    (hops : ∀ op ∈ ops, op.wellNamed)
    (h : AttributionCompleteE σ) : AttributionCompleteE (runOps σ ops) := by
  induction ops generalizing σ with
  | nil => exact h
  | cons op ops ih =>
      exact ih (applyOp σ op)
        (fun o ho => hops o (List.mem_cons_of_mem _ ho))
        (ace_applyOp σ op (hops op (List.mem_cons_self _ _)) h)

/-- C2 witness: the invariant holds at the end of a concrete run that
caches a factory and a trait and then removes the factory. -/
theorem c2_attribution_invariant_witness :
    (∀ op ∈ [CacheOp.cacheFactoryOp exFactory 0, CacheOp.cacheTraitOp exTrait 0,
      CacheOp.removeFactoryOp "user"], op.wellNamed) ∧
    AttributionCompleteE (runOps (mkCacheManager none)
      [.cacheFactoryOp exFactory 0, .cacheTraitOp exTrait 0,
       .removeFactoryOp "user"]) :=
  ⟨by simp [CacheOp.wellNamed, exFactory],
   c2_attribution_invariant (mkCacheManager none) _
    (by simp [CacheOp.wellNamed, exFactory])
    ⟨fun p hp => absurd hp (List.not_mem_nil p),
     fun p hp => absurd hp (List.not_mem_nil p)⟩⟩

/-- C2 counterexample: mutual consistency as claimed is not preserved: it
holds after caching a factory, and one removeFactory call breaks it, because
removeFactory deletes from the value caches without touching the file
index, which afterwards still attributes the name user to its file. -/
theorem c2_counterexample :
    MutuallyConsistent (runOps (mkCacheManager none) [.cacheFactoryOp exFactory 0]) ∧
    ¬ MutuallyConsistent (runOps (mkCacheManager none)
        [.cacheFactoryOp exFactory 0, .removeFactoryOp "user"]) := by
  constructor
  · exact ⟨by decide, by decide⟩
  · intro hcon
    have h1 := hcon.1
    revert h1
    decide

/-- The nonempty-name condition of the invariant is necessary: caching a
factory named by the empty string stores it in the factory cache while the
falsy guard of addToFileCache skips the attribution push, so attribution
completeness fails after that single operation. -/
theorem attribution_fails_on_empty_name :
    attributionCompleteB
      ((mkCacheManager none).cacheFactory
        { name := "", location := { uri := exUri, line := 0 } } 0) = false := by
  decide

/-- C3: a factory cached at time t0 is returned by getFactory at every
lookup time t with age t - t0 at most the TTL; once the age exceeds the TTL
the lookup returns none and deletes the entry from the factory cache as a
side effect; the same holds for cacheTrait and getTrait under the composite
key; and a lookup miss returns none without touching the state (no
exception path exists, both lookups are total). -/
theorem c3_ttl_lazy_expiry (σ : CacheManager) (f : Factory) (tr : Trait)
    (t0 t : Int) :
    (t - t0 ≤ σ.cacheTimeout →
      (σ.cacheFactory f t0).getFactory f.name t = (some f, σ.cacheFactory f t0)) ∧
    (t - t0 > σ.cacheTimeout →
      ((σ.cacheFactory f t0).getFactory f.name t).1 = none ∧
      mapGet ((σ.cacheFactory f t0).getFactory f.name t).2.factoryCache f.name = none) ∧
    (t - t0 ≤ σ.cacheTimeout →
      (σ.cacheTrait tr t0).getTrait tr.factoryName tr.name t =
        (some tr, σ.cacheTrait tr t0)) ∧
    (t - t0 > σ.cacheTimeout →
      ((σ.cacheTrait tr t0).getTrait tr.factoryName tr.name t).1 = none ∧
      mapGet ((σ.cacheTrait tr t0).getTrait tr.factoryName tr.name t).2.traitCache
        tr.getKey = none) ∧
    (∀ n, mapGet σ.factoryCache n = none → σ.getFactory n t = (none, σ)) ∧
    (∀ fn tn, mapGet σ.traitCache (fn ++ ":" ++ tn) = none →
      σ.getTrait fn tn t = (none, σ)) := by
  have hmf : mapGet (σ.cacheFactory f t0).factoryCache f.name = some ⟨f, t0⟩ :=
    mapGet_mapSet_self σ.factoryCache f.name ⟨f, t0⟩
  have hmt : mapGet (σ.cacheTrait tr t0).traitCache (tr.factoryName ++ ":" ++ tr.name) =
      some ⟨tr, t0⟩ :=
    mapGet_mapSet_self σ.traitCache tr.getKey ⟨tr, t0⟩
  refine ⟨?_, ?_, ?_, ?_, ?_, ?_⟩
  · intro h
    have hexp : (σ.cacheFactory f t0).isCacheExpired t0 t = false := by
      simp only [CacheManager.isCacheExpired, decide_eq_false_iff_not, not_lt]
      exact h
    simp [CacheManager.getFactory, hmf, hexp]
  · intro h
    have hexp : (σ.cacheFactory f t0).isCacheExpired t0 t = true := by
      simp only [CacheManager.isCacheExpired, decide_eq_true_eq]
      exact h
    constructor
    · simp [CacheManager.getFactory, hmf, hexp]
    · simp only [CacheManager.getFactory, hmf, hexp, if_pos]
      exact mapGet_mapDelete_self _ _
  · intro h
    have hexp : (σ.cacheTrait tr t0).isCacheExpired t0 t = false := by
      simp only [CacheManager.isCacheExpired, decide_eq_false_iff_not, not_lt]
      exact h
    simp [CacheManager.getTrait, hmt, hexp]
  · intro h
    have hexp : (σ.cacheTrait tr t0).isCacheExpired t0 t = true := by
      simp only [CacheManager.isCacheExpired, decide_eq_true_eq]
      exact h
    constructor
    · simp [CacheManager.getTrait, hmt, hexp]
    · simp only [CacheManager.getTrait, hmt, hexp, if_pos]
      exact mapGet_mapDelete_self _ _
  · intro n h
    simp [CacheManager.getFactory, h]
  · intro fn tn h
    simp [CacheManager.getTrait, h]

/-- C3 witness: with a 100 ms TTL and insertion at time 0, the lookup at
time 50 hits with the cached factory, and the lookup at time 101 misses. -/
theorem c3_ttl_lazy_expiry_witness :
    ((50 : Int) - 0 ≤ (mkCacheManager (some 100)).cacheTimeout) ∧
    ((mkCacheManager (some 100)).cacheFactory exFactory 0).getFactory exFactory.name 50 =
      (some exFactory, (mkCacheManager (some 100)).cacheFactory exFactory 0) ∧
    ((101 : Int) - 0 > (mkCacheManager (some 100)).cacheTimeout) ∧
    (((mkCacheManager (some 100)).cacheFactory exFactory 0).getFactory
      exFactory.name 101).1 = none :=
  ⟨by decide,
   (c3_ttl_lazy_expiry (mkCacheManager (some 100)) exFactory exTrait 0 50).1 (by decide),
   by decide,
   ((c3_ttl_lazy_expiry (mkCacheManager (some 100)) exFactory exTrait 0 101).2.1
     (by decide)).1⟩

/-- C4: updateFileCache removes every factory name and trait key the file
index previously attributed to the file unless the new lists reinsert it,
stores exactly the given new entities (the last occurrence of a name or key
winning, as the forEach insertion order dictates), and leaves every factory
and trait neither attributed to this file nor among the new names
unchanged. -/
theorem c4_updateFileCache_replaces (σ : CacheManager) (u : String)
    (fs : List Factory) (ts : List Trait) (now : Int) :
    (∀ fi, mapGet σ.fileCache u = some fi →
      (∀ n ∈ fi.factories, lastNamed fs n = none →
        mapGet (σ.updateFileCache u fs ts now).factoryCache n = none) ∧
      (∀ k ∈ fi.traits, lastKeyed ts k = none →
        mapGet (σ.updateFileCache u fs ts now).traitCache k = none)) ∧
    (∀ n f, lastNamed fs n = some f →
      mapGet (σ.updateFileCache u fs ts now).factoryCache n = some ⟨f, now⟩) ∧
    (∀ k t, lastKeyed ts k = some t →
      mapGet (σ.updateFileCache u fs ts now).traitCache k = some ⟨t, now⟩) ∧
    (∀ n, (∀ fi, mapGet σ.fileCache u = some fi → n ∉ fi.factories) →
      lastNamed fs n = none →
      mapGet (σ.updateFileCache u fs ts now).factoryCache n =
        mapGet σ.factoryCache n) ∧
    (∀ k, (∀ fi, mapGet σ.fileCache u = some fi → k ∉ fi.traits) →
      lastKeyed ts k = none →
      mapGet (σ.updateFileCache u fs ts now).traitCache k =
        mapGet σ.traitCache k) := by
  have hfcEq : ∀ n, mapGet (σ.updateFileCache u fs ts now).factoryCache n =
      mapGet ((σ.removeFileFromCache u).cacheFactories fs now).factoryCache n := by
    intro n
    rw [updateFileCache_eq, cacheTraits_factoryCache]
  have htcEq : ∀ k, mapGet (σ.updateFileCache u fs ts now).traitCache k =
      mapGet (((σ.removeFileFromCache u).cacheFactories fs now).cacheTraits ts now).traitCache k := by
    intro k
    rw [updateFileCache_eq]
  have htcBase : ((σ.removeFileFromCache u).cacheFactories fs now).traitCache =
      (σ.removeFileFromCache u).traitCache :=
    cacheFactories_traitCache _ _ _
  refine ⟨?_, ?_, ?_, ?_, ?_⟩
  · intro fi hg
    constructor
    · intro n hn hl
      rw [hfcEq, mapGet_cacheFactories, hl,
        removeFileFromCache_factoryCache_some σ u fi hg]
      exact mapGet_foldl_mapDelete_of_mem _ _ _ hn
    · intro k hk hl
      rw [htcEq, mapGet_cacheTraits, hl, htcBase,
        removeFileFromCache_traitCache_some σ u fi hg]
      exact mapGet_foldl_mapDelete_of_mem _ _ _ hk
  · intro n f hl
    rw [hfcEq, mapGet_cacheFactories, hl]
  · intro k t hl
    rw [htcEq, mapGet_cacheTraits, hl]
  · intro n hnot hl
    rw [hfcEq, mapGet_cacheFactories, hl]
    rcases hg : mapGet σ.fileCache u with _ | fi
    · rw [removeFileFromCache_of_none σ u hg]
    · rw [removeFileFromCache_factoryCache_some σ u fi hg]
      exact mapGet_foldl_mapDelete_of_not_mem _ _ _ (hnot fi hg)
  · intro k hnot hl
    rw [htcEq, mapGet_cacheTraits, hl, htcBase]
    rcases hg : mapGet σ.fileCache u with _ | fi
    · rw [removeFileFromCache_of_none σ u hg]
    · rw [removeFileFromCache_traitCache_some σ u fi hg]
      exact mapGet_foldl_mapDelete_of_not_mem _ _ _ (hnot fi hg)

/-- C4 witness: replacing the contents of the users file swaps the factory
user for new_user and leaves a name from another file untouched. -/
theorem c4_updateFileCache_replaces_witness :
    mapGet ((c4State.updateFileCache exUri [exFactoryNew] [] 5).factoryCache) "user" = none ∧
    mapGet ((c4State.updateFileCache exUri [exFactoryNew] [] 5).factoryCache) "new_user" =
      some ⟨exFactoryNew, 5⟩ ∧
    mapGet ((c4State.updateFileCache exUri [exFactoryNew] [] 5).factoryCache) "post" =
      mapGet c4State.factoryCache "post" :=
  ⟨((c4_updateFileCache_replaces c4State exUri [exFactoryNew] [] 5).1 c4FileInfo
      (by decide)).1 "user" (by decide) (by decide),
   (c4_updateFileCache_replaces c4State exUri [exFactoryNew] [] 5).2.1 "new_user"
      exFactoryNew (by decide),
   (c4_updateFileCache_replaces c4State exUri [exFactoryNew] [] 5).2.2.2.1 "post"
      (by
        intro fi hfi
        have hc : mapGet c4State.fileCache exUri = some c4FileInfo := by decide
        rw [hc] at hfi
        cases hfi
        decide)
      (by decide)⟩

/-- C5: removeFactory deletes the factory cached under the given name and,
cascading, every cached trait whose factoryName equals it, while every
factory under another name and every trait of another factory stays cached
unchanged; nothing new appears.  The trait cascade is stated under the
key-uniqueness every JS Map guarantees. -/
theorem c5_removeFactory_cascade (σ : CacheManager) (name : String)
    (hnd : NodupKeys σ.traitCache) :
    mapGet (σ.removeFactory name).factoryCache name = none ∧
    (∀ n, n ≠ name →
      mapGet (σ.removeFactory name).factoryCache n = mapGet σ.factoryCache n) ∧
    (∀ k info, mapGet σ.traitCache k = some info →
      mapGet (σ.removeFactory name).traitCache k =
        (if info.trait.factoryName = name then none else some info)) ∧
    (∀ k, mapGet σ.traitCache k = none →
      mapGet (σ.removeFactory name).traitCache k = none) := by
  have hTC : (σ.removeFactory name).traitCache =
      ((σ.traitCache.filter (fun p => p.2.trait.factoryName = name)).map
        (fun p => p.1)).foldl (fun m kk => mapDelete m kk) σ.traitCache := rfl
  refine ⟨?_, ?_, ?_, ?_⟩
  · exact mapGet_mapDelete_self σ.factoryCache name
  · intro n hn
    exact mapGet_mapDelete_ne σ.factoryCache name n hn
  · intro k info hk
    rw [hTC]
    by_cases hfn : info.trait.factoryName = name
    · rw [if_pos hfn]
      apply mapGet_foldl_mapDelete_of_mem
      have hmem : (k, info) ∈ σ.traitCache := mapGet_eq_some_mem hk
      have hfil : (k, info) ∈
          σ.traitCache.filter (fun p => p.2.trait.factoryName = name) :=
        List.mem_filter.mpr ⟨hmem, by simp [hfn]⟩
      exact List.mem_map.mpr ⟨(k, info), hfil, rfl⟩
    · rw [if_neg hfn]
      rw [mapGet_foldl_mapDelete_of_not_mem]
      · exact hk
      · intro hkmem
        obtain ⟨q, hqfil, hqk⟩ := List.mem_map.mp hkmem
        obtain ⟨hqmem, hqpred⟩ := List.mem_filter.mp hqfil
        have hq : (k, q.2) ∈ σ.traitCache := by
          rw [show (k, q.2) = q from by rw [← hqk]]
          exact hqmem
        have hget := mapGet_eq_some_of_mem hnd hq
        rw [hk] at hget
        have heq : info = q.2 := by
          injection hget
        apply hfn
        rw [heq]
        simpa using hqpred
  · intro k hk
    rw [hTC]
    exact mapGet_none_foldl_mapDelete _ _ _ hk

/-- C5 witness: removing the factory user deletes it and its trait while
the factory post and its trait survive unchanged. -/
theorem c5_removeFactory_cascade_witness :
    mapGet (c5State.removeFactory "user").factoryCache "user" = none ∧
    mapGet (c5State.removeFactory "user").factoryCache "post" =
      mapGet c5State.factoryCache "post" ∧
    mapGet (c5State.removeFactory "user").traitCache "user:admin" = none ∧
    mapGet (c5State.removeFactory "user").traitCache "post:draft" =
      some ⟨exTrait2, 0⟩ := by
  have h := c5_removeFactory_cascade c5State "user" (by unfold NodupKeys; decide)
  refine ⟨h.1, h.2.1 "post" (by decide), ?_, ?_⟩
  · rw [h.2.2.1 "user:admin" ⟨exTrait, 0⟩ (by decide)]
    decide
  · rw [h.2.2.1 "post:draft" ⟨exTrait2, 0⟩ (by decide)]
    decide

/-- C6: the claim states that each trait nested in a factory block yields a
Trait attributed to the enclosing factory and that after linking the Factory
owns it.  The first half holds on the code, but the linking half contradicts
the repository unit tests: findFactoryDefinitions reads the nonexistent
`match[2]`, returns no factories, so linkTraitsToFactories has nothing to
attach the trait to.  On the failing input the trait admin is extracted with
factoryName user at the correct line, while the factory list is empty. -/
theorem c6_trait_linking_bug :
    (parseText c6Input exUri).traits =
      [{ name := "admin", location := { uri := exUri, line := 1 },
         factoryName := "user" }] ∧
    (parseText c6Input exUri).factories = [] := by
  have hblocks : execAll c6Input.data factoryBlockRe =
      [⟨0, 40, [(2, 16, 40), (1, 9, 13)]⟩] := by decide
  have htraits : findTraitDefinitions c6Input exUri =
      [{ name := "admin", location := { uri := exUri, line := 1 },
         factoryName := "user" }] := by
    simp only [findTraitDefinitions]
    rw [hblocks]
    decide
  have hfacts : findFactoryDefinitions c6Input exUri = [] := by decide
  constructor
  · show findTraitDefinitions c6Input exUri = _
    exact htraits
  · show linkTraitsToFactories (findFactoryDefinitions c6Input exUri)
      (findTraitDefinitions c6Input exUri) = []
    rw [hfacts, htraits]
    decide

/-- C7 (amended): the constructor does not clamp the TTL: a nonzero
construction argument is stored unchanged and reported by getCacheStats,
while a zero or absent argument leaves the 60000 ms default; only
setCacheTimeout clamps its argument below by 1000 ms. -/
theorem c7_ttl_clamping (σ : CacheManager) (t : Int) :
    (t ≠ 0 → (mkCacheManager (some t)).getCacheStats.cacheTimeout = t) ∧
    (mkCacheManager (some 0)).getCacheStats.cacheTimeout = 60000 ∧
    (mkCacheManager none).getCacheStats.cacheTimeout = 60000 ∧
    (σ.setCacheTimeout t).getCacheStats.cacheTimeout = max t 1000 := by
  refine ⟨?_, by decide, by decide, rfl⟩
  intro h
  simp [mkCacheManager, CacheManager.getCacheStats, h]

/-- C7 witness: a 500 ms construction argument is nonzero and is reported
unchanged by getCacheStats. -/
theorem c7_ttl_clamping_witness :
    ((500 : Int) ≠ 0) ∧
    (mkCacheManager (some 500)).getCacheStats.cacheTimeout = 500 :=
  ⟨by decide, (c7_ttl_clamping (mkCacheManager none) 500).1 (by decide)⟩

/-- C7 counterexample: constructed with 500 ms, the effective TTL reported
by getCacheStats is 500 and not max 500 1000 = 1000, so the constructor does
not floor-clamp as claimed. -/
theorem c7_counterexample :
    ¬ (mkCacheManager (some 500)).getCacheStats.cacheTimeout = max 500 1000 := by
  decide

/-- C8: the resolver emits, per call site in document order, an optional
factory reference followed only by trait references; on the call-site text
for user with trait admin against a cache holding both, it yields exactly
the factory reference then the trait reference with context factory name
user; on an unresolvable symbol against an empty cache it yields nothing,
and being a total function it raises no error. -/
theorem c8_resolver_emission :
    (∀ text σ now, ∃ siteRefs : List (List Reference),
      (provideDocumentLinks text σ now).1 = siteRefs.flatten ∧
      ∀ rs ∈ siteRefs, ∃ fpart tpart : List Reference, rs = fpart ++ tpart ∧
        (fpart = [] ∨ ∃ r, fpart = [r] ∧ r.kind = RefKind.factoryKind) ∧
        (∀ r ∈ tpart, r.kind = RefKind.traitKind)) ∧
    (provideDocumentLinks "create(:user, :admin)" exState 0).1 =
      [⟨RefKind.factoryKind, exUri, 0, none⟩,
       ⟨RefKind.traitKind, exUri, 1, some "user"⟩] ∧
    (provideDocumentLinks "create(:ghost)"
      ((mkCacheManager none).setInitialized true) 0).1 = [] := by
  refine ⟨?_, ?_, ?_⟩
  · intro text σ now
    by_cases hinit : σ.isInitialized = false
    · refine ⟨[], ?_, by simp⟩
      simp [provideDocumentLinks, hinit]
    · obtain ⟨S, h1, h2⟩ := links_join text.data now (execAll text.data factoryCallRe)
        (([] : List Reference), σ)
      refine ⟨S, ?_, h2⟩
      have he : provideDocumentLinks text σ now =
          (execAll text.data factoryCallRe).foldl (callSiteStep text.data now)
            (([] : List Reference), σ) := by
        simp [provideDocumentLinks, hinit]
      rw [he, h1]
      simp
  · have hcalls : execAll "create(:user, :admin)".data factoryCallRe =
        [⟨0, 21, [(1, 7, 20), (3, 14, 20), (2, 7, 12)]⟩] := by decide
    simp only [provideDocumentLinks]
    rw [hcalls]
    decide
  · have hcalls : execAll "create(:ghost)".data factoryCallRe =
        [⟨0, 14, [(1, 7, 13), (2, 7, 13)]⟩] := by decide
    simp only [provideDocumentLinks]
    rw [hcalls]
    decide

/-- C8 witness: the per-site decomposition instantiated at the user and
admin call-site scenario. -/
theorem c8_resolver_emission_witness :
    ∃ siteRefs : List (List Reference),
      (provideDocumentLinks "create(:user, :admin)" exState 0).1 = siteRefs.flatten ∧
      ∀ rs ∈ siteRefs, ∃ fpart tpart : List Reference, rs = fpart ++ tpart ∧
        (fpart = [] ∨ ∃ r, fpart = [r] ∧ r.kind = RefKind.factoryKind) ∧
        (∀ r ∈ tpart, r.kind = RefKind.traitKind) :=
  c8_resolver_emission.1 "create(:user, :admin)" exState 0

/-- C9 (amended): for a file that the cache tracks, a stat failure makes
shouldUpdateFile return false and, as a side effect, remove every factory
and trait attributed to the file together with its file index entry; no
exception propagates since the embedded operation is total.  For an
untracked file the code instead returns true before any stat is consulted,
see the counterexample. -/
theorem c9_stat_failure (σ : CacheManager) (u : String) (fi : FileCacheInfo)
    (h : mapGet σ.fileCache u = some fi) :
    (σ.shouldUpdateFile u none).1 = false ∧
    (σ.shouldUpdateFile u none).2 = σ.removeFileFromCache u ∧
    (∀ n ∈ fi.factories, mapGet (σ.shouldUpdateFile u none).2.factoryCache n = none) ∧
    (∀ k ∈ fi.traits, mapGet (σ.shouldUpdateFile u none).2.traitCache k = none) ∧
    mapGet (σ.shouldUpdateFile u none).2.fileCache u = none := by
  have hstate : σ.shouldUpdateFile u none = (false, σ.removeFileFromCache u) := by
    simp [CacheManager.shouldUpdateFile, h]
  rw [hstate]
  refine ⟨rfl, rfl, ?_, ?_, ?_⟩
  · intro n hn
    rw [removeFileFromCache_factoryCache_some σ u fi h]
    exact mapGet_foldl_mapDelete_of_mem _ _ _ hn
  · intro k hk
    rw [removeFileFromCache_traitCache_some σ u fi h]
    exact mapGet_foldl_mapDelete_of_mem _ _ _ hk
  · rw [removeFileFromCache_fileCache_some σ u fi h]
    exact mapGet_mapDelete_self _ _

/-- C9 witness: on a state tracking the users file, a failed stat yields
false and evicts the file's factory and its index entry. -/
theorem c9_stat_failure_witness :
    mapGet c4State.fileCache exUri = some c4FileInfo ∧
    (c4State.shouldUpdateFile exUri none).1 = false ∧
    mapGet (c4State.shouldUpdateFile exUri none).2.factoryCache "user" = none ∧
    mapGet (c4State.shouldUpdateFile exUri none).2.fileCache exUri = none := by
  have h := c9_stat_failure c4State exUri c4FileInfo (by decide)
  exact ⟨by decide, h.1, h.2.2.1 "user" (by decide), h.2.2.2.2⟩

/-- C9 counterexample: for an untracked file whose stat would fail,
shouldUpdateFile returns true, not false as claimed, because the untracked
check precedes the stat call. -/
theorem c9_counterexample :
    ((mkCacheManager none).shouldUpdateFile exUri none).1 = true := by
  decide

/-- C10: Factory.equals compares name, location and parentFactory only, so
two factories agreeing on those are equal even when their owned trait maps
differ; equals is not full structural equality of the observable state. -/
theorem c10_equals_ignores_traits (f g : Factory) (h1 : f.name = g.name)
    (h2 : f.location = g.location) (h3 : f.parentFactory = g.parentFactory) :
    Factory.equalsB f g = true := by
  simp [Factory.equalsB, locEquals, h1, h2, h3]

/-- C10 witness: a factory and the same factory after addTrait agree on the
compared fields, are equal under Factory.equals, and still differ in trait
count. -/
theorem c10_equals_ignores_traits_witness :
    exFactory.name = (exFactory.addTrait exTrait).name ∧
    exFactory.location = (exFactory.addTrait exTrait).location ∧
    exFactory.parentFactory = (exFactory.addTrait exTrait).parentFactory ∧
    Factory.equalsB exFactory (exFactory.addTrait exTrait) = true ∧
    exFactory.getTraitCount ≠ (exFactory.addTrait exTrait).getTraitCount :=
  ⟨rfl, rfl, rfl,
   c10_equals_ignores_traits exFactory (exFactory.addTrait exTrait) rfl rfl rfl,
   by decide⟩

end FactoryBotJump
